import Mathlib

/-!
Verification development for the uber-eats-unified-user-analytics-delivery
CDC pipeline (nobruster/spark-project).

The repository consists of three Databricks DLT modules:
  * stream-cdc/02-silver-users-staging-stream.py : unifies MongoDB and MSSQL
    CDC event streams into one staging schema (embedded below directly from
    that source as `silver_users_staging_stream` / `silver_users_staging_latest`);
  * stream-cdc/03-silver-users-cdc-stream.py and batch-cdc/03-silver-users-cdc.py :
    declarative `dlt.apply_changes` configurations driving the managed SCD
    Type 1 / Type 2 merge engine.  The merge engine itself is not part of the
    repository, so it is modelled here from the specification (section 4 of
    the design document): `type1Step`, `type2Step`, `applyEvent`,
    `applyBatchK`, `applyBatchG`.  The configuration constants
    (`streamTracked`, `streamExcept`, `batchExcept`) are transcribed from the
    repository's `apply_changes` call sites.
-/

/-- Attribute names of the unified user schema, as produced by
`silver_users_staging_stream` (02-silver-users-staging-stream.py, output
schema), together with the pipeline-metadata columns that appear in the
`except_column_list` arguments of the `apply_changes` call sites. -/
inductive Attr
  | user_id
  | uuid
  | email
  | delivery_address
  | city
  | first_name
  | last_name
  | birthday
  | job
  | company_name
  | phone_number
  | country
  | dt_current_timestamp
  | operation
  | sequenceNum
  | source_system
  | ingestion_timestamp
  | processed_timestamp
  deriving DecidableEq, Repr

/-- CDC operation tag of a change event. -/
inductive Op
  | insert
  | update
  | delete
  deriving DecidableEq, Repr

/-- Modelled from the spec: a `ChangeEvent` (spec section 3) as consumed by
the merge engine behind `dlt.apply_changes`, which is not part of the
repository.  `fields a = none` means the attribute is absent from the event,
`fields a = some none` means present-null, `fields a = some (some v)` means
present with value `v`.  The value type `V` is abstract. -/
structure ChangeEvent (V : Type) where
  key : String
  op : Op
  seq : Nat
  fields : Attr → Option (Option V)

/-- Modelled from the spec: a `HistoryVersion` row of the SCD Type 2 table
(spec section 3); `endSeq = none` marks the current version. -/
structure Version (V : Type) where
  snapshot : Attr → Option (Option V)
  startSeq : Nat
  endSeq : Option Nat
  isCurrent : Bool
  fp : List (Option (Option V))

/-- Modelled from the spec: the per-key state of the merge engine — the
Type 1 current-state record (if the key is live), the Type 2 version chain
(newest version first), and the idempotency ledger entry
`last_applied_sequence` (spec section 3, MergeState). -/
structure KeyState (V : Type) where
  type1 : Option (Attr → Option (Option V))
  chain : List (Version V)
  lastApplied : Option Nat

/-- The everywhere-absent attribute mapping. -/
def emptyFields {V : Type} : Attr → Option (Option V) := fun _ => none

/-- Modelled from the spec: one carry-forward-and-overwrite merge step
(spec section 4.2, step 2): attributes present in the event (present-null or
present-value) overwrite the previous mapping; absent attributes are left
untouched; attributes of the except list `X` are never stored. -/
def mergeFields {V : Type} (X : List Attr) (prev : Attr → Option (Option V))
    (e : ChangeEvent V) : Attr → Option (Option V) :=
  fun a =>
    if a ∈ X then none
    else
      match e.fields a with
      | some w => some w
      | none => prev a

/-- Modelled from the spec: the tracked-attribute fingerprint — the tuple of
tracked-attribute values of a mapping (spec section 4.3). -/
def fingerprint {V : Type} (T : List Attr) (m : Attr → Option (Option V)) :
    List (Option (Option V)) :=
  T.map m

/-- Modelled from the spec: the SCD Type 1 merge step (spec section 4.2):
`Delete` removes the record; `Insert`/`Update` are treated identically and
merge the event's present fields over the previous record (or over the empty
mapping if the key has no record). -/
def type1Step {V : Type} (X : List Attr)
    (r : Option (Attr → Option (Option V))) (e : ChangeEvent V) :
    Option (Attr → Option (Option V)) :=
  match e.op with
  | .delete => none
  | _ => some (mergeFields X (r.getD emptyFields) e)

/-- Close a history version at sequence `s` (spec section 4.3, step 1). -/
def closeV {V : Type} (v : Version V) (s : Nat) : Version V :=
  { v with endSeq := some s, isCurrent := false }

/-- Modelled from the spec: open a fresh history version from base snapshot
`base` and event `e` (spec section 4.3, step 2). -/
def freshVersion {V : Type} (X T : List Attr) (base : Attr → Option (Option V))
    (e : ChangeEvent V) : Version V :=
  let cand := mergeFields X base e
  { snapshot := cand
    startSeq := e.seq
    endSeq := none
    isCurrent := true
    fp := fingerprint T cand }

/-- Modelled from the spec: the SCD Type 2 merge step (spec section 4.3).
A `Delete` closes the current version (if any) and opens nothing.  Otherwise
the candidate mapping is merged on top of the current version's snapshot (or
the empty mapping if none is current); if the tracked fingerprint is
unchanged the current version's snapshot is updated in place, else the
current version is closed and a new one is opened. -/
def type2Step {V : Type} [DecidableEq V] (X T : List Attr) (ch : List (Version V))
    (e : ChangeEvent V) : List (Version V) :=
  match e.op with
  | .delete =>
    match ch with
    | [] => []
    | v :: rest => if v.endSeq = none then closeV v e.seq :: rest else v :: rest
  | _ =>
    match ch with
    | [] => [freshVersion X T emptyFields e]
    | v :: rest =>
      if v.endSeq = none then
        let cand := mergeFields X v.snapshot e
        if fingerprint T cand = v.fp then { v with snapshot := cand } :: rest
        else freshVersion X T v.snapshot e :: closeV v e.seq :: rest
      else freshVersion X T emptyFields e :: v :: rest

/-- Modelled from the spec: staleness test against the idempotency ledger —
an event whose sequence is at most `last_applied_sequence` is a
duplicate/late arrival (spec section 3, MergeState). -/
def isStale : Option Nat → Nat → Bool
  | none, _ => false
  | some l, s => decide (s ≤ l)

/-- Modelled from the spec: apply a single ordered event to a key's state
(spec sections 4.2-4.4): stale events are dropped without side effects,
otherwise both mergers advance and the ledger is set to the event's
sequence. -/
def applyEvent {V : Type} [DecidableEq V] (X T : List Attr) (st : KeyState V)
    (e : ChangeEvent V) : KeyState V :=
  if isStale st.lastApplied e.seq then st
  else
    { type1 := type1Step X st.type1 e
      chain := type2Step X T st.chain e
      lastApplied := some e.seq }

/-- Modelled from the spec: replay a list of (already ordered) events
through both mergers (spec section 4.4, step 3). -/
def applyEvents {V : Type} [DecidableEq V] (X T : List Attr) (st : KeyState V)
    (es : List (ChangeEvent V)) : KeyState V :=
  es.foldl (applyEvent X T) st

/-- The state of a key before any event: no record, no versions, empty
ledger. -/
def initState {V : Type} : KeyState V := ⟨none, [], none⟩

/-- Ordering of events by their sequence key (spec section 4.1). -/
def seqLe {V : Type} (a b : ChangeEvent V) : Prop := a.seq ≤ b.seq

/-- Strict ordering of events by their sequence key. -/
def seqLt {V : Type} (a b : ChangeEvent V) : Prop := a.seq < b.seq

instance {V : Type} : DecidableRel (seqLe (V := V)) :=
  fun a b => inferInstanceAs (Decidable (a.seq ≤ b.seq))

instance {V : Type} : IsTotal (ChangeEvent V) seqLe :=
  ⟨fun a b => Nat.le_total a.seq b.seq⟩

instance {V : Type} : IsTrans (ChangeEvent V) seqLe :=
  ⟨fun _ _ _ h1 h2 => Nat.le_trans h1 h2⟩

/-- Modelled from the spec: the Sequence Resolver — sort a batch's events
for one key ascending by the sequence key (spec section 4.1). -/
def sortEvents {V : Type} (es : List (ChangeEvent V)) : List (ChangeEvent V) :=
  List.insertionSort seqLe es

/-- Modelled from the spec: per-key batch processing (spec section 4.4):
order the events by sequence, then replay them; staleness filtering happens
against the ledger inside `applyEvent`. -/
def applyBatchK {V : Type} [DecidableEq V] (X T : List Attr) (st : KeyState V)
    (es : List (ChangeEvent V)) : KeyState V :=
  applyEvents X T st (sortEvents es)

/-- Global engine state: one independent `KeyState` per business key. -/
def GState (V : Type) : Type := String → KeyState V

/-- The global state before any event. -/
def initG {V : Type} : GState V := fun _ => initState

/-- Modelled from the spec: the Merge Coordinator applied to one batch
(spec section 4.4): events are partitioned by business key and each key's
events are processed independently. -/
def applyBatchG {V : Type} [DecidableEq V] (X T : List Attr) (g : GState V)
    (es : List (ChangeEvent V)) : GState V :=
  fun k => applyBatchK X T (g k) (es.filter (fun e => e.key == k))

/-- Modelled from the spec: processing a sequence of batches (spec
section 4.4). -/
def applyBatchesG {V : Type} [DecidableEq V] (X T : List Attr) (g : GState V)
    (bs : List (List (ChangeEvent V))) : GState V :=
  bs.foldl (applyBatchG X T) g

/-- The `track_history_column_list` of the streaming Type 2 `apply_changes`
call (03-silver-users-cdc-stream.py, lines 199-207), identical to the batch
Type 2 call (03-silver-users-cdc.py, lines 164-172). -/
def streamTracked : List Attr :=
  [.email, .delivery_address, .city, .first_name, .last_name, .job, .company_name]

/-- The `except_column_list` of both streaming `apply_changes` calls
(03-silver-users-cdc-stream.py, lines 154-159 and 215-220). -/
def streamExcept : List Attr :=
  [.operation, .sequenceNum, .source_system, .ingestion_timestamp]

/-- The `except_column_list` of both batch `apply_changes` calls
(03-silver-users-cdc.py, lines 131 and 177). -/
def batchExcept : List Attr :=
  [.processed_timestamp]

/-- A row of the `bronze_mongodb_users_stream` source, restricted to the
columns read by `silver_users_staging_stream`
(02-silver-users-staging-stream.py, lines 119-149).  Type casting of
`user_id`, `sequenceNum` and `dt_current_timestamp` is modelled as already
performed (the cast output types are used directly); all data columns are
nullable. -/
structure MongoRow where
  cpf : Option String
  user_id : Option Int
  uuid : Option String
  email : Option String
  delivery_address : Option String
  city : Option String
  phone_number : Option String
  country : Option String
  operation : Option String
  sequenceNum : Option Nat
  dt_current_timestamp : Option Nat
  ingestion_timestamp : Option Nat
  deriving DecidableEq, Repr

/-- A row of the `bronze_mssql_users_stream` source, restricted to the
columns read by `silver_users_staging_stream`
(02-silver-users-staging-stream.py, lines 153-183). -/
structure MssqlRow where
  cpf : Option String
  user_id : Option Int
  uuid : Option String
  first_name : Option String
  last_name : Option String
  birthday : Option String
  job : Option String
  company_name : Option String
  phone_number : Option String
  country : Option String
  operation : Option String
  sequenceNum : Option Nat
  dt_current_timestamp : Option Nat
  ingestion_timestamp : Option Nat
  deriving DecidableEq, Repr

/-- A row of the unified staging schema produced by
`silver_users_staging_stream` (02-silver-users-staging-stream.py, output
schema in the module docstring and the two `select` blocks). -/
structure StagingRow where
  cpf : Option String
  user_id : Option Int
  uuid : Option String
  email : Option String
  delivery_address : Option String
  city : Option String
  first_name : Option String
  last_name : Option String
  birthday : Option String
  job : Option String
  company_name : Option String
  phone_number : Option String
  country : Option String
  operation : Option String
  sequenceNum : Option Nat
  dt_current_timestamp : Option Nat
  source_system : String
  ingestion_timestamp : Option Nat
  deriving DecidableEq, Repr

/-- The `mongodb_unified` select of `silver_users_staging_stream`
(02-silver-users-staging-stream.py, lines 119-148): MongoDB-owned columns
are copied, MSSQL-owned columns are set to explicit nulls
(`lit(None).cast(...)`), and the row is tagged `source_system = "mongodb"`. -/
def mongoUnified (r : MongoRow) : StagingRow :=
  { cpf := r.cpf
    user_id := r.user_id
    uuid := r.uuid
    email := r.email
    delivery_address := r.delivery_address
    city := r.city
    first_name := none
    last_name := none
    birthday := none
    job := none
    company_name := none
    phone_number := r.phone_number
    country := r.country
    operation := r.operation
    sequenceNum := r.sequenceNum
    dt_current_timestamp := r.dt_current_timestamp
    source_system := "mongodb"
    ingestion_timestamp := r.ingestion_timestamp }

/-- The `mssql_unified` select of `silver_users_staging_stream`
(02-silver-users-staging-stream.py, lines 153-182): MSSQL-owned columns are
copied, MongoDB-owned columns are set to explicit nulls, and the row is
tagged `source_system = "mssql"`. -/
def mssqlUnified (r : MssqlRow) : StagingRow :=
  { cpf := r.cpf
    user_id := r.user_id
    uuid := r.uuid
    email := none
    delivery_address := none
    city := none
    first_name := r.first_name
    last_name := r.last_name
    birthday := r.birthday
    job := r.job
    company_name := r.company_name
    phone_number := r.phone_number
    country := r.country
    operation := r.operation
    sequenceNum := r.sequenceNum
    dt_current_timestamp := r.dt_current_timestamp
    source_system := "mssql"
    ingestion_timestamp := r.ingestion_timestamp }

/-- The `silver_users_staging_stream` table body
(02-silver-users-staging-stream.py, lines 95-189): each source stream is
standardised to the unified schema, filtered by `cpf IS NOT NULL`, and the
two streams are unioned. -/
def silver_users_staging_stream (mongo : List MongoRow) (mssql : List MssqlRow) :
    List StagingRow :=
  ((mongo.map mongoUnified).filter fun r => r.cpf.isSome)
    ++ ((mssql.map mssqlUnified).filter fun r => r.cpf.isSome)

/-- Comparison of nullable sort keys: `obLe a b` holds when `a` sorts at or
below `b`, with null below every value (so that a `desc` ordering places
nulls last, Spark's default for descending sorts). -/
def obLe : Option Nat → Option Nat → Bool
  | none, _ => true
  | some _, none => false
  | some x, some y => decide (x ≤ y)

/-- The window ordering of `silver_users_staging_latest`
(02-silver-users-staging-stream.py, lines 219-222): `r1` precedes (or ties)
`r2` when it is at least as large under `dt_current_timestamp` descending,
then `sequenceNum` descending. -/
def winLe (r1 r2 : StagingRow) : Bool :=
  if r1.dt_current_timestamp = r2.dt_current_timestamp then
    obLe r2.sequenceNum r1.sequenceNum
  else
    obLe r2.dt_current_timestamp r1.dt_current_timestamp

/-- The window ordering as a relation, for use with `List.insertionSort`. -/
def winRel (r1 r2 : StagingRow) : Prop := winLe r1 r2 = true

instance : DecidableRel winRel :=
  fun a b => inferInstanceAs (Decidable (winLe a b = true))

/-- The `silver_users_staging_latest` table body
(02-silver-users-staging-stream.py, lines 208-226): partition the staging
stream by `cpf`, order each partition by `dt_current_timestamp` descending
then `sequenceNum` descending, and keep the first row (`row_number() = 1`)
of each partition. -/
def silver_users_staging_latest (mongo : List MongoRow) (mssql : List MssqlRow) :
    List StagingRow :=
  let staging := silver_users_staging_stream mongo mssql
  ((staging.map fun r => r.cpf).dedup).filterMap fun k =>
    (List.insertionSort winRel (staging.filter fun r => r.cpf == k)).head?

/-- The ledger covers sequence `s` when `last_applied_sequence` is set and
at least `s`. -/
def covers (last : Option Nat) (s : Nat) : Prop :=
  ∃ l, last = some l ∧ s ≤ l

lemma isStale_of_covers {last : Option Nat} {s : Nat} (h : covers last s) :
    isStale last s = true := by
  obtain ⟨l, hl, hs⟩ := h
  subst hl
  simpa [isStale] using hs

lemma covers_of_isStale {last : Option Nat} {s : Nat} (h : isStale last s = true) :
    covers last s := by
  cases last with
  | none => simp [isStale] at h
  | some l => exact ⟨l, rfl, by simpa [isStale] using h⟩

lemma covers_applyEvent {V : Type} [DecidableEq V] (X T : List Attr)
    (st : KeyState V) (e : ChangeEvent V) {s : Nat} (h : covers st.lastApplied s) :
    covers (applyEvent X T st e).lastApplied s := by
  obtain ⟨l, hl, hs⟩ := h
  unfold applyEvent
  by_cases hst : isStale st.lastApplied e.seq = true
  · simp only [hst, if_true]
    exact ⟨l, hl, hs⟩
  · simp only [hst, if_false, Bool.false_eq_true]
    refine ⟨e.seq, rfl, ?_⟩
    rw [hl] at hst
    simp only [isStale, decide_eq_true_eq] at hst
    omega

lemma covers_self_applyEvent {V : Type} [DecidableEq V] (X T : List Attr)
    (st : KeyState V) (e : ChangeEvent V) :
    covers (applyEvent X T st e).lastApplied e.seq := by
  unfold applyEvent
  by_cases hst : isStale st.lastApplied e.seq = true
  · simpa [hst] using covers_of_isStale hst
  · simp [hst]
    exact ⟨e.seq, rfl, Nat.le_refl _⟩

lemma covers_applyEvents {V : Type} [DecidableEq V] (X T : List Attr)
    (st : KeyState V) (es : List (ChangeEvent V)) {s : Nat}
    (h : covers st.lastApplied s) :
    covers (applyEvents X T st es).lastApplied s := by
  induction es generalizing st with
  | nil => exact h
  | cons e tl ih => exact ih _ (covers_applyEvent X T st e h)

lemma covers_mem_applyEvents {V : Type} [DecidableEq V] (X T : List Attr)
    {e : ChangeEvent V} :
    ∀ (es : List (ChangeEvent V)) (st : KeyState V), e ∈ es →
      covers (applyEvents X T st es).lastApplied e.seq := by
  intro es
  induction es with
  | nil => intro st h; cases h
  | cons x tl ih =>
    intro st h
    rcases List.mem_cons.mp h with h' | h'
    · subst h'
      exact covers_applyEvents X T _ tl (covers_self_applyEvent X T st e)
    · exact ih _ h'

lemma applyEvents_stale_eq {V : Type} [DecidableEq V] (X T : List Attr)
    (st : KeyState V) (es : List (ChangeEvent V))
    (h : ∀ e ∈ es, covers st.lastApplied e.seq) :
    applyEvents X T st es = st := by
  induction es with
  | nil => rfl
  | cons e tl ih =>
    have hstep : applyEvent X T st e = st := by
      unfold applyEvent
      rw [isStale_of_covers (h e (List.mem_cons_self e tl))]
      simp
    show applyEvents X T (applyEvent X T st e) tl = st
    rw [hstep]
    exact ih fun x hx => h x (List.mem_cons_of_mem e hx)

/-- C2.  Processing is idempotent: re-applying the same batch, or re-applying
any prefix of it, is a no-op — the resulting current-state record, history
chain and ledger are identical to applying the batch once; and an individual
event whose sequence is at most the ledger's `last_applied_sequence` is
dropped without any side effect. -/
theorem c2_idempotent_replay {V : Type} [DecidableEq V] (X T : List Attr)
    (st : KeyState V) (es : List (ChangeEvent V)) :
    applyBatchK X T (applyBatchK X T st es) es = applyBatchK X T st es
    ∧ (∀ pre suf, pre ++ suf = es →
        applyBatchK X T (applyBatchK X T st es) pre = applyBatchK X T st es)
    ∧ (∀ (st' : KeyState V) (e : ChangeEvent V),
        isStale st'.lastApplied e.seq = true → applyEvent X T st' e = st') := by
  have key : ∀ sub : List (ChangeEvent V), (∀ e ∈ sub, e ∈ es) →
      applyBatchK X T (applyBatchK X T st es) sub = applyBatchK X T st es := by
    intro sub hsub
    unfold applyBatchK
    apply applyEvents_stale_eq
    intro e he
    have he' : e ∈ es := hsub e ((List.mem_insertionSort seqLe).mp he)
    have he'' : e ∈ sortEvents es := (List.mem_insertionSort seqLe).mpr he'
    exact covers_mem_applyEvents X T (sortEvents es) st he''
  refine ⟨key es fun _ h => h, ?_, ?_⟩
  · intro pre suf hps
    refine key pre fun e he => ?_
    rw [← hps]
    exact List.mem_append_left suf he
  · intro st' e h
    unfold applyEvent
    rw [h]
    simp

lemma applyEvents_eq_pure {V : Type} [DecidableEq V] (X T : List Attr) :
    ∀ (es : List (ChangeEvent V)) (st : KeyState V),
      List.Pairwise seqLt es →
      (∀ x ∈ es, isStale st.lastApplied x.seq = false) →
      applyEvents X T st es =
        ⟨es.foldl (type1Step X) st.type1,
         es.foldl (type2Step X T) st.chain,
         es.getLast?.elim st.lastApplied fun x => some x.seq⟩ := by
  intro es
  induction es with
  | nil =>
    intro st _ _
    rfl
  | cons e tl ih =>
    intro st hasc hfresh
    have hstep : applyEvent X T st e =
        ⟨type1Step X st.type1 e, type2Step X T st.chain e, some e.seq⟩ := by
      unfold applyEvent
      rw [hfresh e (List.mem_cons_self e tl)]
      simp
    have htl : ∀ x ∈ tl,
        isStale (⟨type1Step X st.type1 e, type2Step X T st.chain e,
          some e.seq⟩ : KeyState V).lastApplied x.seq = false := by
      intro x hx
      have : e.seq < x.seq := (List.pairwise_cons.mp hasc).1 x hx
      simp only [isStale, decide_eq_false_iff_not]
      omega
    show applyEvents X T (applyEvent X T st e) tl = _
    rw [hstep, ih _ (List.pairwise_cons.mp hasc).2 htl]
    cases tl with
    | nil => rfl
    | cons b l =>
      cases hgl : (b :: l).getLast? with
      | none =>
        have : b :: l ≠ [] := by simp
        rw [List.getLast?_eq_none_iff] at hgl
        exact absurd hgl this
      | some x => simp [hgl]

lemma applyEvents_init_pure {V : Type} [DecidableEq V] (X T : List Attr)
    (es : List (ChangeEvent V)) (hasc : List.Pairwise seqLt es) :
    applyEvents X T initState es =
      ⟨es.foldl (type1Step X) none,
       es.foldl (type2Step X T) [],
       es.getLast?.elim none fun x => some x.seq⟩ := by
  exact applyEvents_eq_pure X T es initState hasc fun x _ => rfl

lemma type1_foldl_nodelete {V : Type} (X : List Attr) :
    ∀ (es : List (ChangeEvent V)) (m : Attr → Option (Option V)),
      (∀ e ∈ es, e.op ≠ Op.delete) →
      es.foldl (type1Step X) (some m) =
        some (es.foldl (fun m' e => mergeFields X m' e) m) := by
  intro es
  induction es with
  | nil => intro m _; rfl
  | cons e tl ih =>
    intro m hop
    have he : type1Step X (some m) e = some (mergeFields X m e) := by
      have : e.op ≠ Op.delete := hop e (List.mem_cons_self e tl)
      unfold type1Step
      cases h : e.op with
      | delete => exact absurd h this
      | insert => simp [Option.getD]
      | update => simp [Option.getD]
    show List.foldl (type1Step X) (type1Step X (some m) e) tl = _
    rw [he, ih _ fun x hx => hop x (List.mem_cons_of_mem e hx)]
    rfl

lemma mergeFoldl_attr {V : Type} (X : List Attr) {a : Attr} (ha : a ∉ X) :
    ∀ (es : List (ChangeEvent V)) (m : Attr → Option (Option V)),
      (es.foldl (fun m' e => mergeFields X m' e) m) a =
        es.foldl (fun acc e =>
          match e.fields a with
          | some w => some w
          | none => acc) (m a) := by
  intro es
  induction es with
  | nil => intro m; rfl
  | cons e tl ih =>
    intro m
    show (tl.foldl (fun m' e => mergeFields X m' e) (mergeFields X m e)) a = _
    rw [ih (mergeFields X m e)]
    have : (mergeFields X m e) a =
        match e.fields a with
        | some w => some w
        | none => m a := by
      unfold mergeFields
      rw [if_neg ha]
    rw [this, List.foldl_cons]

/-- The value of attribute `a` after the whole event list: the value carried
by the last event in which `a` was present (present-value or present-null),
or absent when no event ever carried it.  For a list in ascending sequence
order this is the highest-sequence event that specified `a`. -/
def lastPresent {V : Type} (es : List (ChangeEvent V)) (a : Attr) :
    Option (Option V) :=
  es.foldl (fun acc e =>
    match e.fields a with
    | some w => some w
    | none => acc) none

/-- C1.  Type 1 convergence: for a key receiving only `Insert`/`Update`
events in ascending sequence order, the final current-state record exists
and, attribute by attribute (over the stored attributes, i.e. those not on
the except list), equals the value of the highest-sequence event in which
that attribute was present — present-null and present-value both overwrite,
absent attributes are left untouched, so partial events from different
sources merge into one record. -/
theorem c1_type1_convergence {V : Type} [DecidableEq V] (X T : List Attr)
    (es : List (ChangeEvent V)) (hne : es ≠ [])
    (hop : ∀ e ∈ es, e.op ≠ Op.delete) (hasc : List.Pairwise seqLt es)
    (a : Attr) (ha : a ∉ X) :
    ∃ m, (applyEvents X T initState es).type1 = some m ∧
      m a = lastPresent es a := by
  rw [applyEvents_init_pure X T es hasc]
  cases es with
  | nil => exact absurd rfl hne
  | cons e tl =>
    have hstep : type1Step X (none : Option (Attr → Option (Option V))) e =
        some (mergeFields X emptyFields e) := by
      have : e.op ≠ Op.delete := hop e (List.mem_cons_self e tl)
      unfold type1Step
      cases h : e.op with
      | delete => exact absurd h this
      | insert => rfl
      | update => rfl
    refine ⟨tl.foldl (fun m' e' => mergeFields X m' e') (mergeFields X emptyFields e),
      ?_, ?_⟩
    · show (e :: tl).foldl (type1Step X) none = _
      rw [List.foldl_cons, hstep,
        type1_foldl_nodelete X tl _ fun x hx => hop x (List.mem_cons_of_mem e hx)]
    · rw [mergeFoldl_attr X ha]
      have : (mergeFields X emptyFields e) a =
          match e.fields a with
          | some w => some w
          | none => none := by
        unfold mergeFields
        rw [if_neg ha]
        rfl
      rw [this]
      rfl

instance {V : Type} : DecidableRel (seqLt (V := V)) :=
  fun a b => inferInstanceAs (Decidable (a.seq < b.seq))

/-- Build an event field mapping from an association list (absent attributes
are the ones not listed). -/
def evFields (fs : List (Attr × Option Nat)) : Attr → Option (Option Nat) :=
  fun a => (fs.find? fun p => p.1 == a).map Prod.snd

/-- A partial MongoDB-origin event: only delivery-side attributes present. -/
def evM1 : ChangeEvent Nat :=
  ⟨"42", Op.update, 1, evFields [(Attr.email, some 10), (Attr.city, some 20)]⟩

/-- A partial MSSQL-origin event: only a profile attribute present. -/
def evS2 : ChangeEvent Nat :=
  ⟨"42", Op.update, 2, evFields [(Attr.first_name, some 30)]⟩

/-- Witness for C1 at a concrete input: a partial MongoDB event (sequence 1)
followed by a partial MSSQL event (sequence 2) produce one record whose
`email` comes from the MongoDB event and whose `first_name` comes from the
MSSQL event. -/
theorem c1_type1_convergence_witness :
    (∃ m, (applyEvents streamExcept streamTracked initState [evM1, evS2]).type1 = some m ∧
        m Attr.email = lastPresent [evM1, evS2] Attr.email)
    ∧ (∃ m, (applyEvents streamExcept streamTracked initState [evM1, evS2]).type1 = some m ∧
        m Attr.first_name = lastPresent [evM1, evS2] Attr.first_name) :=
  ⟨c1_type1_convergence streamExcept streamTracked [evM1, evS2]
      (List.cons_ne_nil _ _) (by decide) (by decide) Attr.email (by decide),
   c1_type1_convergence streamExcept streamTracked [evM1, evS2]
      (List.cons_ne_nil _ _) (by decide) (by decide) Attr.first_name (by decide)⟩

/-- Witness for C2 at a concrete input: after applying the two-event batch,
re-applying its one-event prefix changes nothing. -/
theorem c2_idempotent_replay_witness :
    applyBatchK streamExcept streamTracked
        (applyBatchK streamExcept streamTracked (initState (V := Nat)) [evM1, evS2]) [evM1]
      = applyBatchK streamExcept streamTracked initState [evM1, evS2] :=
  (c2_idempotent_replay streamExcept streamTracked initState [evM1, evS2]).2.1
    [evM1] [evS2] rfl

/-- The sequence of candidate merged snapshots along an event list: entry
`i` is the carry-forward merge of the first `i+1` events on top of `m`
(spec section 4.3, step 2). -/
def snapsFrom {V : Type} (X : List Attr) :
    List (ChangeEvent V) → (Attr → Option (Option V)) →
      List (Attr → Option (Option V))
  | [], _ => []
  | e :: tl, m => mergeFields X m e :: snapsFrom X tl (mergeFields X m e)

/-- The sequence of candidate tracked fingerprints along an event list,
starting from the empty mapping. -/
def candFps {V : Type} (X T : List Attr) (es : List (ChangeEvent V)) :
    List (List (Option (Option V))) :=
  (snapsFrom X es emptyFields).map (fingerprint T)

/-- Number of positions at which a list differs from its predecessor
(adjacent changes). -/
def countChanges {α : Type} [DecidableEq α] : List α → Nat
  | [] => 0
  | [_] => 0
  | x :: y :: t => (if y = x then 0 else 1) + countChanges (y :: t)

lemma snapsFrom_append {V : Type} (X : List Attr) :
    ∀ (es : List (ChangeEvent V)) (e : ChangeEvent V) (m : Attr → Option (Option V)),
      snapsFrom X (es ++ [e]) m =
        snapsFrom X es m ++
          [mergeFields X (es.foldl (fun m' e' => mergeFields X m' e') m) e] := by
  intro es
  induction es with
  | nil => intro e m; rfl
  | cons x tl ih =>
    intro e m
    show mergeFields X m x :: snapsFrom X (tl ++ [e]) (mergeFields X m x) = _
    rw [ih e (mergeFields X m x)]
    rfl

lemma snapsFrom_getLast {V : Type} (X : List Attr) :
    ∀ (es : List (ChangeEvent V)) (m : Attr → Option (Option V)), es ≠ [] →
      (snapsFrom X es m).getLast? =
        some (es.foldl (fun m' e' => mergeFields X m' e') m) := by
  intro es
  induction es with
  | nil => intro m h; exact absurd rfl h
  | cons x tl ih =>
    intro m _
    cases tl with
    | nil => rfl
    | cons b l =>
      have h1 : snapsFrom X (x :: b :: l) m =
          mergeFields X m x :: snapsFrom X (b :: l) (mergeFields X m x) := rfl
      rw [h1]
      have h2 : snapsFrom X (b :: l) (mergeFields X m x) =
          mergeFields X (mergeFields X m x) b ::
            snapsFrom X l (mergeFields X (mergeFields X m x) b) := rfl
      rw [h2, List.getLast?_cons_cons, ← h2]
      exact ih (mergeFields X m x) (List.cons_ne_nil b l)

lemma candFps_getLast {V : Type} [DecidableEq V] (X T : List Attr)
    (es : List (ChangeEvent V)) (hne : es ≠ []) :
    (candFps X T es).getLast? =
      some (fingerprint T (es.foldl (fun m' e' => mergeFields X m' e') emptyFields)) := by
  unfold candFps
  have h := snapsFrom_getLast X es emptyFields hne
  obtain ⟨l', hl'⟩ : ∃ l', snapsFrom X es emptyFields = l' ++ [es.foldl (fun m' e' => mergeFields X m' e') emptyFields] := by
    rcases List.eq_nil_or_concat (snapsFrom X es emptyFields) with h0 | ⟨l', z, hz⟩
    · rw [h0] at h; simp at h
    · rw [List.concat_eq_append] at hz
      rw [hz, List.getLast?_concat] at h
      obtain rfl := Option.some_injective _ h
      exact ⟨l', hz⟩
  rw [hl', List.map_append]
  simp [List.getLast?_concat]

lemma countChanges_append {α : Type} [DecidableEq α] :
    ∀ (l : List α) (x : α),
      countChanges (l ++ [x]) =
        countChanges l +
          (match l.getLast? with
           | none => 0
           | some z => if x = z then 0 else 1)
  | [], _ => by simp [countChanges]
  | [a], x => by
    show countChanges [a, x] = countChanges [a] + _
    simp [countChanges]
  | a :: b :: t, x => by
    have ih := countChanges_append (b :: t) x
    show countChanges (a :: b :: (t ++ [x])) = _
    have h1 : countChanges (a :: b :: (t ++ [x])) =
        (if b = a then 0 else 1) + countChanges (b :: (t ++ [x])) := rfl
    have h2 : countChanges (a :: b :: t) =
        (if b = a then 0 else 1) + countChanges (b :: t) := rfl
    rw [h1, h2]
    have h3 : (b :: t) ++ [x] = b :: (t ++ [x]) := rfl
    rw [h3] at ih
    rw [ih]
    have h4 : (a :: b :: t).getLast? = (b :: t).getLast? := List.getLast?_cons_cons
    rw [h4]
    omega

lemma countChanges_append_eq {α : Type} [DecidableEq α] (l : List α) (x z : α)
    (h : l.getLast? = some z) (hx : x = z) :
    countChanges (l ++ [x]) = countChanges l := by
  rw [countChanges_append, h]
  simp [hx]

lemma countChanges_append_ne {α : Type} [DecidableEq α] (l : List α) (x z : α)
    (h : l.getLast? = some z) (hx : x ≠ z) :
    countChanges (l ++ [x]) = countChanges l + 1 := by
  rw [countChanges_append, h]
  simp [hx]

lemma type2Step_open {V : Type} [DecidableEq V] (X T : List Attr)
    (v : Version V) (rest : List (Version V)) (e : ChangeEvent V)
    (hope : e.op ≠ Op.delete) (hopen : v.endSeq = none) :
    type2Step X T (v :: rest) e =
      if fingerprint T (mergeFields X v.snapshot e) = v.fp then
        { v with snapshot := mergeFields X v.snapshot e } :: rest
      else
        freshVersion X T v.snapshot e :: closeV v e.seq :: rest := by
  unfold type2Step
  cases he : e.op with
  | delete => exact absurd he hope
  | insert => simp [hopen]
  | update => simp [hopen]

lemma type2_run_spec {V : Type} [DecidableEq V] (X T : List Attr) :
    ∀ (es : List (ChangeEvent V)), es ≠ [] → (∀ e ∈ es, e.op ≠ Op.delete) →
    ∃ v rest, es.foldl (type2Step X T) [] = v :: rest ∧
      v.endSeq = none ∧
      v.snapshot = es.foldl (fun m e => mergeFields X m e) emptyFields ∧
      v.fp = fingerprint T (es.foldl (fun m e => mergeFields X m e) emptyFields) ∧
      (v :: rest).length = 1 + countChanges (candFps X T es) := by
  intro es
  induction es using List.reverseRecOn with
  | nil => intro hne _; exact absurd rfl hne
  | append_singleton l e ih =>
    intro _ hop
    have hope : e.op ≠ Op.delete := hop e (by simp)
    rcases eq_or_ne l [] with rfl | hlne
    · refine ⟨freshVersion X T emptyFields e, [], ?_, rfl, rfl, rfl, rfl⟩
      show type2Step X T [] e = _
      unfold type2Step
      cases he : e.op with
      | delete => exact absurd he hope
      | insert => rfl
      | update => rfl
    · obtain ⟨v, rest, hch, hopen, hsnap, hfp, hlen⟩ :=
        ih hlne fun x hx => hop x (List.mem_append_left [e] hx)
      have hfold : (l ++ [e]).foldl (type2Step X T) [] = type2Step X T (v :: rest) e := by
        rw [List.foldl_append, hch]
        rfl
      have hcand : (l ++ [e]).foldl (fun m e' => mergeFields X m e') emptyFields =
          mergeFields X (l.foldl (fun m e' => mergeFields X m e') emptyFields) e := by
        rw [List.foldl_append]
        rfl
      have hfps : candFps X T (l ++ [e]) =
          candFps X T l ++
            [fingerprint T
              (mergeFields X (l.foldl (fun m e' => mergeFields X m e') emptyFields) e)] := by
        unfold candFps
        rw [snapsFrom_append, List.map_append]
        rfl
      have hlast : (candFps X T l).getLast? = some v.fp := by
        rw [candFps_getLast X T l hlne, hfp]
      have hstep := type2Step_open X T v rest e hope hopen
      have hvs : mergeFields X v.snapshot e =
          mergeFields X (l.foldl (fun m e' => mergeFields X m e') emptyFields) e := by
        rw [hsnap]
      have hlen' : (v :: rest).length = rest.length + 1 := by simp
      by_cases hsame : fingerprint T (mergeFields X v.snapshot e) = v.fp
      · refine ⟨{ v with snapshot := mergeFields X v.snapshot e }, rest, ?_, hopen, ?_, ?_, ?_⟩
        · rw [hfold, hstep, if_pos hsame]
        · show mergeFields X v.snapshot e = _
          rw [hcand, hvs]
        · show v.fp = _
          rw [← hsame, hcand, hvs]
        · show rest.length + 1 = _
          rw [hfps,
            countChanges_append_eq (candFps X T l) _ v.fp hlast (by rw [← hvs]; exact hsame)]
          rw [hlen'] at hlen
          exact hlen
      · refine ⟨freshVersion X T v.snapshot e, closeV v e.seq :: rest, ?_, rfl, ?_, ?_, ?_⟩
        · rw [hfold, hstep, if_neg hsame]
        · show mergeFields X v.snapshot e = _
          rw [hcand, hvs]
        · show fingerprint T (mergeFields X v.snapshot e) = _
          rw [hcand, hvs]
        · show (closeV v e.seq :: rest).length + 1 = _
          rw [hfps,
            countChanges_append_ne (candFps X T l) _ v.fp hlast (by rw [← hvs]; exact hsame)]
          have h2 : (closeV v e.seq :: rest).length = rest.length + 1 := by simp
          rw [hlen'] at hlen
          rw [h2]
          omega

/-- C3.  Type 2 fork count: for a key receiving only `Insert`/`Update`
events in ascending sequence order, the number of history versions equals
1 plus the number of events whose candidate tracked fingerprint differs
from the immediately preceding one; and an event whose candidate
fingerprint matches the current version's fingerprint only updates that
version's snapshot in place (same `start_sequence`, no new version). -/
theorem c3_type2_fork_count {V : Type} [DecidableEq V] (X T : List Attr)
    (es : List (ChangeEvent V)) (hne : es ≠ [])
    (hop : ∀ e ∈ es, e.op ≠ Op.delete) (hasc : List.Pairwise seqLt es) :
    (applyEvents X T initState es).chain.length = 1 + countChanges (candFps X T es)
    ∧ (∀ (v : Version V) (rest : List (Version V)) (e : ChangeEvent V),
        e.op ≠ Op.delete → v.endSeq = none →
        fingerprint T (mergeFields X v.snapshot e) = v.fp →
        type2Step X T (v :: rest) e =
          { v with snapshot := mergeFields X v.snapshot e } :: rest) := by
  constructor
  · rw [applyEvents_init_pure X T es hasc]
    obtain ⟨v, rest, hch, _, _, _, hlen⟩ := type2_run_spec X T es hne hop
    show (es.foldl (type2Step X T) []).length = _
    rw [hch]
    exact hlen
  · intro v rest e hope hopen hfp
    unfold type2Step
    cases he : e.op with
    | delete => exact absurd he hope
    | insert => simp [hopen, hfp]
    | update => simp [hopen, hfp]

/-- Event with a tracked attribute (`email`) and a non-tracked one. -/
def ev3a : ChangeEvent Nat :=
  ⟨"42", Op.insert, 1, evFields [(Attr.email, some 1), (Attr.city, some 100)]⟩

/-- Event touching only the non-tracked attribute `phone_number`. -/
def ev3b : ChangeEvent Nat :=
  ⟨"42", Op.update, 2, evFields [(Attr.phone_number, some 5)]⟩

/-- Event changing the tracked attribute `email`. -/
def ev3c : ChangeEvent Nat :=
  ⟨"42", Op.update, 3, evFields [(Attr.email, some 2)]⟩

/-- Witness for C3 at a concrete input: three events of which only the first
and third change tracked attributes produce a two-version chain. -/
theorem c3_type2_fork_count_witness :
    (applyEvents streamExcept streamTracked initState [ev3a, ev3b, ev3c]).chain.length =
      1 + countChanges (candFps streamExcept streamTracked [ev3a, ev3b, ev3c]) :=
  (c3_type2_fork_count streamExcept streamTracked [ev3a, ev3b, ev3c]
    (List.cons_ne_nil _ _) (by decide) (by decide)).1

/-- Modelled from the spec: the structural invariants of a Type 2 version
chain together with a bound relating every version to the ledger (spec
section 3, HistoryVersion invariants): only the head version may be open,
`is_current` mirrors `end_sequence = null`, every closed version's range is
non-empty, versions are ordered newest-first with disjoint ranges, and all
sequence values are at most `last_applied_sequence`. -/
structure ChainInv {V : Type} (ch : List (Version V)) (last : Option Nat) : Prop where
  headOpen : ∀ v ∈ ch.drop 1, v.endSeq ≠ none
  flags : ∀ v ∈ ch, (v.isCurrent = true ↔ v.endSeq = none)
  startLt : ∀ v ∈ ch, ∀ s, v.endSeq = some s → v.startSeq < s
  ordered : ch.Pairwise fun a b => ∃ s, b.endSeq = some s ∧ s ≤ a.startSeq
  bounded : ∀ v ∈ ch, ∃ l, last = some l ∧ v.startSeq ≤ l ∧
    ∀ s, v.endSeq = some s → s ≤ l

lemma chainInv_nil {V : Type} : ChainInv ([] : List (Version V)) none := by
  refine ⟨?_, ?_, ?_, ?_, ?_⟩ <;> simp

lemma type2Step_delete_nil {V : Type} [DecidableEq V] (X T : List Attr)
    (e : ChangeEvent V) (hop : e.op = Op.delete) :
    type2Step X T ([] : List (Version V)) e = [] := by
  unfold type2Step
  simp only [hop]

lemma type2Step_delete_open {V : Type} [DecidableEq V] (X T : List Attr)
    (v : Version V) (rest : List (Version V)) (e : ChangeEvent V)
    (hop : e.op = Op.delete) (hvo : v.endSeq = none) :
    type2Step X T (v :: rest) e = closeV v e.seq :: rest := by
  unfold type2Step
  simp only [hop, hvo, if_true]

lemma type2Step_delete_closed {V : Type} [DecidableEq V] (X T : List Attr)
    (v : Version V) (rest : List (Version V)) (e : ChangeEvent V)
    (hop : e.op = Op.delete) (hvc : v.endSeq ≠ none) :
    type2Step X T (v :: rest) e = v :: rest := by
  unfold type2Step
  simp only [hop]
  rw [if_neg hvc]

lemma type2Step_nondelete_nil {V : Type} [DecidableEq V] (X T : List Attr)
    (e : ChangeEvent V) (hop : e.op ≠ Op.delete) :
    type2Step X T ([] : List (Version V)) e = [freshVersion X T emptyFields e] := by
  unfold type2Step
  cases he : e.op with
  | delete => exact absurd he hop
  | insert => rfl
  | update => rfl

lemma type2Step_nondelete_closed {V : Type} [DecidableEq V] (X T : List Attr)
    (v : Version V) (rest : List (Version V)) (e : ChangeEvent V)
    (hop : e.op ≠ Op.delete) (hvc : v.endSeq ≠ none) :
    type2Step X T (v :: rest) e = freshVersion X T emptyFields e :: v :: rest := by
  unfold type2Step
  cases he : e.op with
  | delete => exact absurd he hop
  | insert => simp [hvc]
  | update => simp [hvc]

lemma freshVersion_endSeq {V : Type} (X T : List Attr)
    (base : Attr → Option (Option V)) (e : ChangeEvent V) :
    (freshVersion X T base e).endSeq = none := rfl

lemma chainInv_type2_nondelete {V : Type} [DecidableEq V] (X T : List Attr)
    (ch : List (Version V)) (e : ChangeEvent V) {last : Option Nat}
    (hlt : ∀ v ∈ ch, v.startSeq < e.seq ∧ ∀ s, v.endSeq = some s → s < e.seq)
    (h : ChainInv ch last) (hop : e.op ≠ Op.delete) :
    ChainInv (type2Step X T ch e) (some e.seq) := by
  cases ch with
  | nil =>
    rw [type2Step_nondelete_nil X T e hop]
    refine ⟨?_, ?_, ?_, ?_, ?_⟩
    · simp
    · intro v hv
      rcases List.mem_singleton.mp hv with rfl
      show (true = true ↔ none = none)
      simp
    · intro v hv s hse
      rcases List.mem_singleton.mp hv with rfl
      rw [freshVersion_endSeq] at hse
      cases hse
    · simp
    · intro v hv
      rcases List.mem_singleton.mp hv with rfl
      refine ⟨e.seq, rfl, Nat.le_refl _, ?_⟩
      intro s hse
      rw [freshVersion_endSeq] at hse
      cases hse
  | cons v rest =>
    have hvmem : v ∈ v :: rest := List.mem_cons_self v rest
    have hord := h.ordered
    rw [List.pairwise_cons] at hord
    have hboundOld : ∀ w ∈ v :: rest, ∃ l, (some e.seq : Option Nat) = some l ∧
        w.startSeq ≤ l ∧ ∀ s, w.endSeq = some s → s ≤ l := fun w hw =>
      ⟨e.seq, rfl, Nat.le_of_lt (hlt w hw).1,
        fun s hs => Nat.le_of_lt ((hlt w hw).2 s hs)⟩
    have hrestEnds : ∀ b ∈ rest, ∃ s, b.endSeq = some s ∧ s ≤ e.seq := by
      intro b hb
      obtain ⟨s, hs⟩ := Option.ne_none_iff_exists'.mp
        (h.headOpen b (by simpa using hb))
      exact ⟨s, hs, Nat.le_of_lt ((hlt b (List.mem_cons_of_mem v hb)).2 s hs)⟩
    by_cases hvo : v.endSeq = none
    · rw [type2Step_open X T v rest e hop hvo]
      by_cases hsame : fingerprint T (mergeFields X v.snapshot e) = v.fp
      · rw [if_pos hsame]
        refine ⟨?_, ?_, ?_, ?_, ?_⟩
        · intro w hw
          exact h.headOpen w hw
        · intro w hw
          rcases List.mem_cons.mp hw with rfl | hw'
          · show (v.isCurrent = true ↔ v.endSeq = none)
            exact h.flags v hvmem
          · exact h.flags w (List.mem_cons_of_mem v hw')
        · intro w hw s hse
          rcases List.mem_cons.mp hw with rfl | hw'
          · exact h.startLt v hvmem s hse
          · exact h.startLt w (List.mem_cons_of_mem v hw') s hse
        · rw [List.pairwise_cons]
          refine ⟨fun b hb => ?_, hord.2⟩
          obtain ⟨s, hs1, hs2⟩ := hord.1 b hb
          exact ⟨s, hs1, hs2⟩
        · intro w hw
          rcases List.mem_cons.mp hw with rfl | hw'
          · refine ⟨e.seq, rfl, Nat.le_of_lt (hlt v hvmem).1, ?_⟩
            intro s hse
            have hse' : v.endSeq = some s := hse
            rw [hvo] at hse'
            cases hse'
          · exact hboundOld w (List.mem_cons_of_mem v hw')
      · rw [if_neg hsame]
        refine ⟨?_, ?_, ?_, ?_, ?_⟩
        · intro w hw
          rcases List.mem_cons.mp hw with rfl | hw'
          · show (some e.seq : Option Nat) ≠ none
            simp
          · exact h.headOpen w hw'
        · intro w hw
          rcases List.mem_cons.mp hw with rfl | hw'
          · show (true = true ↔ none = none)
            simp
          · rcases List.mem_cons.mp hw' with rfl | hw''
            · show (false = true ↔ some e.seq = none)
              simp
            · exact h.flags w (List.mem_cons_of_mem v hw'')
        · intro w hw s hse
          rcases List.mem_cons.mp hw with rfl | hw'
          · rw [freshVersion_endSeq] at hse
            cases hse
          · rcases List.mem_cons.mp hw' with rfl | hw''
            · have : (closeV v e.seq).endSeq = some e.seq := rfl
              rw [this] at hse
              obtain rfl := Option.some_injective _ hse
              exact (hlt v hvmem).1
            · exact h.startLt w (List.mem_cons_of_mem v hw'') s hse
        · rw [List.pairwise_cons]
          constructor
          · intro b hb
            rcases List.mem_cons.mp hb with rfl | hb'
            · exact ⟨e.seq, rfl, Nat.le_refl _⟩
            · obtain ⟨s, hs, hse⟩ := hrestEnds b hb'
              exact ⟨s, hs, hse⟩
          · rw [List.pairwise_cons]
            refine ⟨fun b hb => ?_, hord.2⟩
            obtain ⟨s, hs1, hs2⟩ := hord.1 b hb
            exact ⟨s, hs1, hs2⟩
        · intro w hw
          rcases List.mem_cons.mp hw with rfl | hw'
          · refine ⟨e.seq, rfl, Nat.le_refl _, ?_⟩
            intro s hse
            rw [freshVersion_endSeq] at hse
            cases hse
          · rcases List.mem_cons.mp hw' with rfl | hw''
            · refine ⟨e.seq, rfl, Nat.le_of_lt (hlt v hvmem).1, ?_⟩
              intro s hse
              have : (closeV v e.seq).endSeq = some e.seq := rfl
              rw [this] at hse
              obtain rfl := Option.some_injective _ hse
              exact Nat.le_refl _
            · exact hboundOld w (List.mem_cons_of_mem v hw'')
    · rw [type2Step_nondelete_closed X T v rest e hop hvo]
      refine ⟨?_, ?_, ?_, ?_, ?_⟩
      · intro w hw
        rcases List.mem_cons.mp hw with rfl | hw'
        · exact hvo
        · exact h.headOpen w hw'
      · intro w hw
        rcases List.mem_cons.mp hw with rfl | hw'
        · show (true = true ↔ none = none)
          simp
        · exact h.flags w hw'
      · intro w hw s hse
        rcases List.mem_cons.mp hw with rfl | hw'
        · rw [freshVersion_endSeq] at hse
          cases hse
        · exact h.startLt w hw' s hse
      · rw [List.pairwise_cons]
        constructor
        · intro b hb
          rcases List.mem_cons.mp hb with rfl | hb'
          · obtain ⟨s, hs⟩ := Option.ne_none_iff_exists'.mp hvo
            exact ⟨s, hs, Nat.le_of_lt ((hlt _ hvmem).2 s hs)⟩
          · obtain ⟨s, hs, hse⟩ := hrestEnds b hb'
            exact ⟨s, hs, hse⟩
        · exact h.ordered
      · intro w hw
        rcases List.mem_cons.mp hw with rfl | hw'
        · refine ⟨e.seq, rfl, Nat.le_refl _, ?_⟩
          intro s hse
          rw [freshVersion_endSeq] at hse
          cases hse
        · exact hboundOld w hw'

lemma chainInv_applyEvent {V : Type} [DecidableEq V] (X T : List Attr)
    (st : KeyState V) (e : ChangeEvent V)
    (h : ChainInv st.chain st.lastApplied) :
    ChainInv (applyEvent X T st e).chain (applyEvent X T st e).lastApplied := by
  by_cases hstale : isStale st.lastApplied e.seq = true
  · unfold applyEvent
    rw [hstale]
    simpa using h
  · have hlt : ∀ v ∈ st.chain, v.startSeq < e.seq ∧
        ∀ s, v.endSeq = some s → s < e.seq := by
      intro v hv
      obtain ⟨l, hl, hs, he'⟩ := h.bounded v hv
      rw [hl] at hstale
      simp only [isStale, decide_eq_true_eq] at hstale
      constructor
      · omega
      · intro s hse
        have := he' s hse
        omega
    have hsh : (applyEvent X T st e).chain = type2Step X T st.chain e ∧
        (applyEvent X T st e).lastApplied = some e.seq := by
      unfold applyEvent
      rw [Bool.not_eq_true] at hstale
      rw [hstale]
      simp
    rw [hsh.1, hsh.2]
    cases hop : e.op with
    | delete =>
      cases hch : st.chain with
      | nil =>
        rw [type2Step_delete_nil X T e hop]
        refine ⟨?_, ?_, ?_, ?_, ?_⟩ <;> simp
      | cons v rest =>
        rw [hch] at h hlt
        have hvmem : v ∈ v :: rest := List.mem_cons_self v rest
        have hord := h.ordered
        rw [List.pairwise_cons] at hord
        by_cases hvo : v.endSeq = none
        · rw [type2Step_delete_open X T v rest e hop hvo]
          refine ⟨?_, ?_, ?_, ?_, ?_⟩
          · intro w hw
            exact h.headOpen w hw
          · intro w hw
            rcases List.mem_cons.mp hw with rfl | hw'
            · show (false = true ↔ some e.seq = none)
              simp
            · exact h.flags w (List.mem_cons_of_mem v hw')
          · intro w hw s hse
            rcases List.mem_cons.mp hw with rfl | hw'
            · have : (closeV v e.seq).endSeq = some e.seq := rfl
              rw [this] at hse
              obtain rfl := Option.some_injective _ hse
              exact (hlt v hvmem).1
            · exact h.startLt w (List.mem_cons_of_mem v hw') s hse
          · rw [List.pairwise_cons]
            refine ⟨fun b hb => ?_, hord.2⟩
            obtain ⟨s, hs1, hs2⟩ := hord.1 b hb
            exact ⟨s, hs1, hs2⟩
          · intro w hw
            rcases List.mem_cons.mp hw with rfl | hw'
            · refine ⟨e.seq, rfl, Nat.le_of_lt (hlt v hvmem).1, ?_⟩
              intro s hse
              have : (closeV v e.seq).endSeq = some e.seq := rfl
              rw [this] at hse
              obtain rfl := Option.some_injective _ hse
              exact Nat.le_refl _
            · have hw'' := List.mem_cons_of_mem v hw'
              exact ⟨e.seq, rfl, Nat.le_of_lt (hlt w hw'').1,
                fun s hs => Nat.le_of_lt ((hlt w hw'').2 s hs)⟩
        · rw [type2Step_delete_closed X T v rest e hop hvo]
          refine ⟨h.headOpen, h.flags, h.startLt, h.ordered, ?_⟩
          intro w hw
          exact ⟨e.seq, rfl, Nat.le_of_lt (hlt w hw).1,
            fun s hs => Nat.le_of_lt ((hlt w hw).2 s hs)⟩
    | insert =>
      exact chainInv_type2_nondelete X T st.chain e hlt h
        (by rw [hop]; intro hc; cases hc)
    | update =>
      exact chainInv_type2_nondelete X T st.chain e hlt h
        (by rw [hop]; intro hc; cases hc)

lemma chainInv_applyEvents {V : Type} [DecidableEq V] (X T : List Attr) :
    ∀ (es : List (ChangeEvent V)) (st : KeyState V),
      ChainInv st.chain st.lastApplied →
      ChainInv (applyEvents X T st es).chain (applyEvents X T st es).lastApplied := by
  intro es
  induction es with
  | nil => intro st h; exact h
  | cons e tl ih =>
    intro st h
    exact ih (applyEvent X T st e) (chainInv_applyEvent X T st e h)

lemma chainInv_reachable {V : Type} [DecidableEq V] (X T : List Attr)
    (es : List (ChangeEvent V)) :
    ChainInv (applyEvents X T initState es).chain
      (applyEvents X T initState es).lastApplied :=
  chainInv_applyEvents X T es initState chainInv_nil

/-- C4.  Delete semantics: applying a fresh `Delete` event to a reachable
key state removes the Type 1 record, leaves every Type 2 version closed
(`end_sequence` set, `is_current` false) and opens no new version (the chain
length is unchanged); a subsequent fresh non-delete event then builds its
Type 1 record from its own fields only (merged over the empty mapping, so
nothing is carried over from before the delete) and opens a fresh version
whose snapshot likewise starts from the empty mapping. -/
theorem c4_delete_semantics {V : Type} [DecidableEq V] (X T : List Attr)
    (es0 : List (ChangeEvent V)) (st : KeyState V)
    (hst : st = applyEvents X T initState es0)
    (e : ChangeEvent V) (hop : e.op = Op.delete)
    (hfresh : isStale st.lastApplied e.seq = false) :
    (applyEvent X T st e).type1 = none
    ∧ (∀ v ∈ (applyEvent X T st e).chain, v.endSeq ≠ none ∧ v.isCurrent = false)
    ∧ (applyEvent X T st e).chain.length = st.chain.length
    ∧ (∀ e' : ChangeEvent V, e'.op ≠ Op.delete →
        isStale (applyEvent X T st e).lastApplied e'.seq = false →
        (applyEvent X T (applyEvent X T st e) e').type1 =
          some (mergeFields X emptyFields e')
        ∧ (applyEvent X T (applyEvent X T st e) e').chain =
          freshVersion X T emptyFields e' :: (applyEvent X T st e).chain) := by
  have hinv : ChainInv st.chain st.lastApplied := by
    rw [hst]
    exact chainInv_reachable X T es0
  have happ : applyEvent X T st e =
      ⟨type1Step X st.type1 e, type2Step X T st.chain e, some e.seq⟩ := by
    unfold applyEvent
    rw [hfresh]
    simp
  have ht1 : type1Step X st.type1 e = none := by
    unfold type1Step
    rw [hop]
  have hclosed : ∀ v ∈ type2Step X T st.chain e,
      v.endSeq ≠ none ∧ v.isCurrent = false := by
    cases hch : st.chain with
    | nil =>
      rw [type2Step_delete_nil X T e hop]
      intro v hv
      cases hv
    | cons v rest =>
      rw [hch] at hinv
      by_cases hvo : v.endSeq = none
      · rw [type2Step_delete_open X T v rest e hop hvo]
        intro w hw
        rcases List.mem_cons.mp hw with rfl | hw'
        · refine ⟨?_, rfl⟩
          show (some e.seq : Option Nat) ≠ none
          simp
        · have hne := hinv.headOpen w (by simpa using hw')
          refine ⟨hne, ?_⟩
          have hf := hinv.flags w (List.mem_cons_of_mem v hw')
          rcases Bool.eq_false_or_eq_true w.isCurrent with hb | hb
          · exact absurd (hf.mp hb) hne
          · exact hb
      · rw [type2Step_delete_closed X T v rest e hop hvo]
        intro w hw
        have hne : w.endSeq ≠ none := by
          rcases List.mem_cons.mp hw with rfl | hw'
          · exact hvo
          · exact hinv.headOpen w (by simpa using hw')
        refine ⟨hne, ?_⟩
        have hf := hinv.flags w hw
        rcases Bool.eq_false_or_eq_true w.isCurrent with hb | hb
        · exact absurd (hf.mp hb) hne
        · exact hb
  have hlen : (type2Step X T st.chain e).length = st.chain.length := by
    cases hch : st.chain with
    | nil =>
      rw [type2Step_delete_nil X T e hop]
    | cons v rest =>
      by_cases hvo : v.endSeq = none
      · rw [type2Step_delete_open X T v rest e hop hvo]
        simp [closeV]
      · rw [type2Step_delete_closed X T v rest e hop hvo]
  refine ⟨?_, ?_, ?_, ?_⟩
  · rw [happ]
    exact ht1
  · rw [happ]
    exact hclosed
  · rw [happ]
    exact hlen
  · intro e' hope' hfresh'
    have hfr : isStale (some e.seq) e'.seq = false := by
      rw [happ] at hfresh'
      exact hfresh'
    rw [happ, ht1]
    have hs2 : applyEvent X T
        (⟨none, type2Step X T st.chain e, some e.seq⟩ : KeyState V) e' =
        ⟨type1Step X none e', type2Step X T (type2Step X T st.chain e) e',
          some e'.seq⟩ := by
      have hc : isStale
          ((⟨none, type2Step X T st.chain e, some e.seq⟩ : KeyState V)).lastApplied
          e'.seq = false := hfr
      unfold applyEvent
      rw [hc]
      simp
    rw [hs2]
    constructor
    · show type1Step X none e' = _
      unfold type1Step
      cases he' : e'.op with
      | delete => exact absurd he' hope'
      | insert => rfl
      | update => rfl
    · show type2Step X T (type2Step X T st.chain e) e' = _
      cases hch2 : type2Step X T st.chain e with
      | nil =>
        rw [type2Step_nondelete_nil X T e' hope']
      | cons w ws =>
        have hwc : w.endSeq ≠ none := by
          have := hclosed w (by rw [hch2]; exact List.mem_cons_self w ws)
          exact this.1
        rw [type2Step_nondelete_closed X T w ws e' hope' hwc]

/-- Delete event used by the C4 witness. -/
def evDel : ChangeEvent Nat := ⟨"42", Op.delete, 2, evFields []⟩

/-- Post-delete insert event used by the C4 witness. -/
def evC4i : ChangeEvent Nat := ⟨"42", Op.insert, 3, evFields [(Attr.email, some 7)]⟩

/-- Witness for C4 at a concrete input: insert at sequence 1, delete at
sequence 2 (record gone), insert at sequence 3 (fresh version from the
event's own fields only). -/
theorem c4_delete_semantics_witness :
    (applyEvent streamExcept streamTracked
        (applyEvents streamExcept streamTracked initState [ev3a]) evDel).type1 = none
    ∧ (applyEvent streamExcept streamTracked
        (applyEvent streamExcept streamTracked
          (applyEvents streamExcept streamTracked initState [ev3a]) evDel) evC4i).chain =
      freshVersion streamExcept streamTracked emptyFields evC4i ::
        (applyEvent streamExcept streamTracked
          (applyEvents streamExcept streamTracked initState [ev3a]) evDel).chain := by
  have h := c4_delete_semantics streamExcept streamTracked [ev3a] _ rfl evDel rfl
    (by decide)
  exact ⟨h.1, (h.2.2.2 evC4i (by decide) (by decide)).2⟩

/-- Literal contiguity of a version chain (newest first): every older
version's `end_sequence` equals the next newer version's `start_sequence`. -/
def ContiguousChain {V : Type} (ch : List (Version V)) : Prop :=
  List.Chain' (fun a b => b.endSeq = some a.startSeq) ch

/-- Sequence `t` lies in the half-open validity range
`[start_sequence, end_sequence)` of a version (unbounded when the version is
open). -/
def rangeAt {V : Type} (v : Version V) (t : Nat) : Prop :=
  v.startSeq ≤ t ∧ ∀ s, v.endSeq = some s → t < s

/-- The `(start_sequence, fingerprint)` of the chain's current version, if
its head is open. -/
def headCur {V : Type} (ch : List (Version V)) :
    Option (Nat × List (Option (Option V))) :=
  match ch with
  | [] => none
  | v :: _ => if v.endSeq = none then some (v.startSeq, v.fp) else none

/-- The `(start_sequence, fingerprint)` current at sequence time `t`:
replay exactly the events with sequence at most `t` and read the open head
version, if any. -/
def curFpAt {V : Type} [DecidableEq V] (X T : List Attr)
    (es : List (ChangeEvent V)) (t : Nat) :
    Option (Nat × List (Option (Option V))) :=
  headCur ((applyEvents X T initState
    (es.filter fun e => decide (e.seq ≤ t))).chain)

lemma getLast?_mem_of_eq {α : Type} {l : List α} {x : α}
    (h : l.getLast? = some x) : x ∈ l := by
  obtain ⟨hne, rfl⟩ := List.mem_getLast?_eq_getLast (Option.mem_def.mpr h)
  exact List.getLast_mem hne

lemma chain_fresh_bound {V : Type} [DecidableEq V] (X T : List Attr)
    (l : List (ChangeEvent V)) (e : ChangeEvent V)
    (hasc : List.Pairwise seqLt (l ++ [e])) :
    isStale (applyEvents X T initState l).lastApplied e.seq = false
    ∧ ∀ v ∈ (applyEvents X T initState l).chain,
        v.startSeq < e.seq ∧ ∀ s, v.endSeq = some s → s < e.seq := by
  have hsplit := (List.pairwise_append.mp hasc)
  have hascl : List.Pairwise seqLt l := hsplit.1
  have hall : ∀ x ∈ l, x.seq < e.seq := by
    intro x hx
    exact hsplit.2.2 x hx e (List.mem_singleton_self e)
  have hfresh : isStale (applyEvents X T initState l).lastApplied e.seq = false := by
    rw [applyEvents_init_pure X T l hascl]
    show isStale (l.getLast?.elim none fun x => some x.seq) e.seq = false
    cases hgl : l.getLast? with
    | none => rfl
    | some x =>
      have hx : x ∈ l := getLast?_mem_of_eq hgl
      have := hall x hx
      simp only [Option.elim, isStale, decide_eq_false_iff_not]
      omega
  refine ⟨hfresh, ?_⟩
  intro v hv
  obtain ⟨L, hL, h1, h2⟩ := (chainInv_reachable X T l).bounded v hv
  rw [hL] at hfresh
  simp only [isStale, decide_eq_false_iff_not] at hfresh
  constructor
  · omega
  · intro s hse
    have := h2 s hse
    omega

lemma filter_last_lt {V : Type} (l : List (ChangeEvent V)) (e : ChangeEvent V)
    {t : Nat} (ht : t < e.seq) :
    (l ++ [e]).filter (fun x => decide (x.seq ≤ t)) =
      l.filter (fun x => decide (x.seq ≤ t)) := by
  rw [List.filter_append]
  have : [e].filter (fun x => decide (x.seq ≤ t)) = [] := by
    simp only [List.filter, decide_eq_true_eq]
    rw [decide_eq_false (by omega)]
  rw [this, List.append_nil]

lemma filter_last_ge {V : Type} (l : List (ChangeEvent V)) (e : ChangeEvent V)
    {t : Nat} (ht : e.seq ≤ t) (hall : ∀ x ∈ l, x.seq < e.seq) :
    (l ++ [e]).filter (fun x => decide (x.seq ≤ t)) = l ++ [e] := by
  rw [List.filter_eq_self]
  intro x hx
  rcases List.mem_append.mp hx with hx' | hx'
  · have := hall x hx'
    simp only [decide_eq_true_eq]
    omega
  · rcases List.mem_singleton.mp hx' with rfl
    simp only [decide_eq_true_eq]
    omega

lemma curFpAt_lt {V : Type} [DecidableEq V] (X T : List Attr)
    (l : List (ChangeEvent V)) (e : ChangeEvent V) {t : Nat} (ht : t < e.seq) :
    curFpAt X T (l ++ [e]) t = curFpAt X T l t := by
  unfold curFpAt
  rw [filter_last_lt l e ht]

lemma curFpAt_ge {V : Type} [DecidableEq V] (X T : List Attr)
    (l : List (ChangeEvent V)) (e : ChangeEvent V) {t : Nat} (ht : e.seq ≤ t)
    (hall : ∀ x ∈ l, x.seq < e.seq) :
    curFpAt X T (l ++ [e]) t =
      headCur ((applyEvents X T initState (l ++ [e])).chain) := by
  unfold curFpAt
  rw [filter_last_ge l e ht hall]

lemma pairwise_strengthen {α : Type} {r s : α → α → Prop} :
    ∀ l : List α, l.Pairwise r →
      (∀ a b, a ∈ l → b ∈ l → r a b → s a b) → l.Pairwise s := by
  intro l
  induction l with
  | nil => intro _ _; exact List.Pairwise.nil
  | cons x tl ih =>
    intro hp hrs
    rw [List.pairwise_cons] at hp ⊢
    refine ⟨fun b hb => hrs x b (List.mem_cons_self x tl)
      (List.mem_cons_of_mem x hb) (hp.1 b hb), ?_⟩
    exact ih hp.2 fun a b ha hb hr =>
      hrs a b (List.mem_cons_of_mem x ha) (List.mem_cons_of_mem x hb) hr

lemma atMostOneOpen_of_headOpen {V : Type} (ch : List (Version V))
    (h : ∀ v ∈ ch.drop 1, v.endSeq ≠ none) :
    (ch.filter fun v => decide (v.endSeq = none)).length ≤ 1 := by
  cases ch with
  | nil => simp
  | cons v rest =>
    have hrest : rest.filter (fun v => decide (v.endSeq = none)) = [] := by
      rw [List.filter_eq_nil_iff]
      intro w hw
      simp only [decide_eq_true_eq]
      exact h w (by simpa using hw)
    rw [List.filter_cons]
    by_cases hv : v.endSeq = none
    · rw [if_pos (by simpa using hv), hrest]
      simp
    · rw [if_neg (by simpa using hv), hrest]
      simp

lemma type2_contiguous_nodelete {V : Type} [DecidableEq V] (X T : List Attr) :
    ∀ es : List (ChangeEvent V), (∀ e ∈ es, e.op ≠ Op.delete) →
      List.Chain' (fun a b => b.endSeq = some a.startSeq)
        (es.foldl (type2Step X T) []) := by
  intro es
  induction es using List.reverseRecOn with
  | nil => intro _; exact List.chain'_nil
  | append_singleton l e ih =>
    intro hop
    have hope : e.op ≠ Op.delete := hop e (by simp)
    have hopl : ∀ x ∈ l, x.op ≠ Op.delete := fun x hx =>
      hop x (List.mem_append_left [e] hx)
    rcases eq_or_ne l [] with rfl | hlne
    · show List.Chain' _ (List.foldl (type2Step X T) [] ([] ++ [e]))
      have : List.foldl (type2Step X T) ([] : List (Version V)) ([] ++ [e]) =
          type2Step X T [] e := rfl
      rw [this, type2Step_nondelete_nil X T e hope]
      exact List.chain'_singleton _
    · obtain ⟨v, rest, hch, hopen, _, _, _⟩ := type2_run_spec X T l hlne hopl
      have hfold : (l ++ [e]).foldl (type2Step X T) [] =
          type2Step X T (v :: rest) e := by
        rw [List.foldl_append, hch]
        rfl
      rw [hfold, type2Step_open X T v rest e hope hopen]
      have ihc := ih hopl
      rw [hch] at ihc
      by_cases hsame : fingerprint T (mergeFields X v.snapshot e) = v.fp
      · rw [if_pos hsame]
        cases rest with
        | nil => exact List.chain'_singleton _
        | cons r0 rs =>
          rw [List.chain'_cons] at ihc ⊢
          exact ⟨ihc.1, ihc.2⟩
      · rw [if_neg hsame]
        rw [List.chain'_cons]
        constructor
        · rfl
        · cases rest with
          | nil => exact List.chain'_singleton _
          | cons r0 rs =>
            rw [List.chain'_cons] at ihc ⊢
            exact ⟨ihc.1, ihc.2⟩

lemma delete_closes_all {V : Type} [DecidableEq V] (X T : List Attr)
    (ch : List (Version V)) (e : ChangeEvent V)
    (hOnly : ∀ v ∈ ch.drop 1, v.endSeq ≠ none) (hop : e.op = Op.delete) :
    ∀ v ∈ type2Step X T ch e, v.endSeq ≠ none := by
  cases ch with
  | nil =>
    rw [type2Step_delete_nil X T e hop]
    intro v hv
    cases hv
  | cons v rest =>
    by_cases hvo : v.endSeq = none
    · rw [type2Step_delete_open X T v rest e hop hvo]
      intro w hw
      rcases List.mem_cons.mp hw with rfl | hw'
      · show (some e.seq : Option Nat) ≠ none
        simp
      · exact hOnly w (by simpa using hw')
    · rw [type2Step_delete_closed X T v rest e hop hvo]
      intro w hw
      rcases List.mem_cons.mp hw with rfl | hw'
      · exact hvo
      · exact hOnly w (by simpa using hw')

lemma trailing_delete_closes {V : Type} [DecidableEq V] (X T : List Attr)
    (l : List (ChangeEvent V)) (e : ChangeEvent V)
    (hasc : List.Pairwise seqLt (l ++ [e])) (hop : e.op = Op.delete) :
    ∀ v ∈ (applyEvents X T initState (l ++ [e])).chain, v.endSeq ≠ none := by
  have hb := chain_fresh_bound X T l e hasc
  have happ : applyEvents X T initState (l ++ [e]) =
      applyEvent X T (applyEvents X T initState l) e := by
    unfold applyEvents
    rw [List.foldl_append]
    rfl
  have happ2 : applyEvent X T (applyEvents X T initState l) e =
      ⟨type1Step X (applyEvents X T initState l).type1 e,
       type2Step X T (applyEvents X T initState l).chain e, some e.seq⟩ := by
    unfold applyEvent
    rw [hb.1]
    simp
  rw [happ, happ2]
  exact delete_closes_all X T _ e (chainInv_reachable X T l).headOpen hop

lemma type2_coverage {V : Type} [DecidableEq V] (X T : List Attr) :
    ∀ es : List (ChangeEvent V), List.Pairwise seqLt es →
      (∀ v ∈ (applyEvents X T initState es).chain, ∀ t, rangeAt v t →
          curFpAt X T es t = some (v.startSeq, v.fp))
      ∧ (∀ (t : Nat) (p : Nat × List (Option (Option V))),
          curFpAt X T es t = some p →
          ∃ v, v ∈ (applyEvents X T initState es).chain ∧
            v.startSeq = p.1 ∧ v.fp = p.2 ∧ rangeAt v t) := by
  intro es
  induction es using List.reverseRecOn with
  | nil =>
    intro _
    constructor
    · intro v hv
      cases hv
    · intro t p hp
      have hnone : curFpAt X T ([] : List (ChangeEvent V)) t = none := rfl
      rw [hnone] at hp
      cases hp
  | append_singleton l e ih =>
    intro hasc
    have hsplit := List.pairwise_append.mp hasc
    have hascl : List.Pairwise seqLt l := hsplit.1
    have hall : ∀ x ∈ l, x.seq < e.seq := fun x hx =>
      hsplit.2.2 x hx e (List.mem_singleton_self e)
    obtain ⟨IH1, IH2⟩ := ih hascl
    have hb := chain_fresh_bound X T l e hasc
    have happ0 : applyEvents X T initState (l ++ [e]) =
        applyEvent X T (applyEvents X T initState l) e := by
      unfold applyEvents
      rw [List.foldl_append]
      rfl
    have happ : applyEvents X T initState (l ++ [e]) =
        ⟨type1Step X (applyEvents X T initState l).type1 e,
         type2Step X T (applyEvents X T initState l).chain e, some e.seq⟩ := by
      rw [happ0]
      unfold applyEvent
      rw [hb.1]
      simp
    have hch' : (applyEvents X T initState (l ++ [e])).chain =
        type2Step X T (applyEvents X T initState l).chain e := by
      rw [happ]
    have hcl : ∀ w ∈ (applyEvents X T initState l).chain, ∀ t, rangeAt w t →
        w.endSeq ≠ none → t < e.seq := by
      intro w hw t hr hwc
      obtain ⟨s, hs⟩ := Option.ne_none_iff_exists'.mp hwc
      have h1 := hr.2 s hs
      have h2 := (hb.2 w hw).2 s hs
      omega
    have hinvl := chainInv_reachable X T l
    by_cases hdel : e.op = Op.delete
    · cases hCc : (applyEvents X T initState l).chain with
      | nil =>
        have hcs : (applyEvents X T initState (l ++ [e])).chain = [] := by
          rw [hch', hCc, type2Step_delete_nil X T e hdel]
        constructor
        · intro w hw
          rw [hcs] at hw
          cases hw
        · intro t p hp
          by_cases hts : e.seq ≤ t
          · rw [curFpAt_ge X T l e hts hall, hcs] at hp
            cases hp
          · rw [curFpAt_lt X T l e (by omega)] at hp
            obtain ⟨v0, hv0, _⟩ := IH2 t p hp
            rw [hCc] at hv0
            cases hv0
      | cons v rest =>
        have hvmem : v ∈ (applyEvents X T initState l).chain := by
          rw [hCc]
          exact List.mem_cons_self v rest
        have hrestmem : ∀ w ∈ rest, w ∈ (applyEvents X T initState l).chain := by
          intro w hw
          rw [hCc]
          exact List.mem_cons_of_mem v hw
        have hrestcl : ∀ w ∈ rest, w.endSeq ≠ none := by
          intro w hw
          exact hinvl.headOpen w (by rw [hCc]; simpa using hw)
        by_cases hvo : v.endSeq = none
        · have hcs : (applyEvents X T initState (l ++ [e])).chain =
              closeV v e.seq :: rest := by
            rw [hch', hCc, type2Step_delete_open X T v rest e hdel hvo]
          constructor
          · intro w hw t hr
            rw [hcs] at hw
            rcases List.mem_cons.mp hw with rfl | hw'
            · have htlt : t < e.seq := hr.2 e.seq rfl
              rw [curFpAt_lt X T l e htlt]
              exact IH1 v hvmem t ⟨hr.1, fun s hs => by rw [hvo] at hs; cases hs⟩
            · have htlt := hcl w (hrestmem w hw') t hr (hrestcl w hw')
              rw [curFpAt_lt X T l e htlt]
              exact IH1 w (hrestmem w hw') t hr
          · intro t p hp
            by_cases hts : e.seq ≤ t
            · rw [curFpAt_ge X T l e hts hall, hcs] at hp
              have hx : (headCur (closeV v e.seq :: rest) :
                  Option (Nat × List (Option (Option V)))) = none := by
                simp [headCur, closeV]
              rw [hx] at hp
              cases hp
            · rw [curFpAt_lt X T l e (by omega)] at hp
              obtain ⟨v0, hv0, hst, hfp2, hr⟩ := IH2 t p hp
              rw [hCc] at hv0
              rw [hcs]
              rcases List.mem_cons.mp hv0 with rfl | hv0'
              · refine ⟨closeV v0 e.seq, List.mem_cons_self _ _, hst, hfp2, hr.1, ?_⟩
                intro s hs
                have hs' : some e.seq = some s := hs
                obtain rfl := Option.some_injective _ hs'
                omega
              · exact ⟨v0, List.mem_cons_of_mem _ hv0', hst, hfp2, hr⟩
        · have hcs : (applyEvents X T initState (l ++ [e])).chain = v :: rest := by
            rw [hch', hCc, type2Step_delete_closed X T v rest e hdel hvo]
          have hallcl : ∀ w ∈ v :: rest, w.endSeq ≠ none := by
            intro w hw
            rcases List.mem_cons.mp hw with rfl | hw'
            · exact hvo
            · exact hrestcl w hw'
          constructor
          · intro w hw t hr
            rw [hcs] at hw
            have hwmem : w ∈ (applyEvents X T initState l).chain := by
              rw [hCc]
              exact hw
            have htlt := hcl w hwmem t hr (hallcl w hw)
            rw [curFpAt_lt X T l e htlt]
            exact IH1 w hwmem t hr
          · intro t p hp
            by_cases hts : e.seq ≤ t
            · rw [curFpAt_ge X T l e hts hall, hcs] at hp
              have hx : (headCur (v :: rest) :
                  Option (Nat × List (Option (Option V)))) = none := by
                simp [headCur, hvo]
              rw [hx] at hp
              cases hp
            · rw [curFpAt_lt X T l e (by omega)] at hp
              obtain ⟨v0, hv0, hst, hfp2, hr⟩ := IH2 t p hp
              rw [hCc] at hv0
              rw [hcs]
              exact ⟨v0, hv0, hst, hfp2, hr⟩
    · cases hCc : (applyEvents X T initState l).chain with
      | nil =>
        have hcs : (applyEvents X T initState (l ++ [e])).chain =
            [freshVersion X T emptyFields e] := by
          rw [hch', hCc, type2Step_nondelete_nil X T e hdel]
        have hhd : (headCur [freshVersion X T emptyFields e] :
            Option (Nat × List (Option (Option V)))) =
            some (e.seq, (freshVersion X T emptyFields e).fp) := by
          simp [headCur, freshVersion]
        constructor
        · intro w hw t hr
          rw [hcs] at hw
          rcases List.mem_singleton.mp hw with rfl
          have hts : e.seq ≤ t := hr.1
          rw [curFpAt_ge X T l e hts hall, hcs, hhd]; rfl
        · intro t p hp
          by_cases hts : e.seq ≤ t
          · rw [curFpAt_ge X T l e hts hall, hcs, hhd] at hp
            obtain rfl := Option.some_injective _ hp
            refine ⟨freshVersion X T emptyFields e, by rw [hcs]; simp, rfl, rfl,
              hts, ?_⟩
            intro s hs
            rw [freshVersion_endSeq] at hs
            cases hs
          · rw [curFpAt_lt X T l e (by omega)] at hp
            obtain ⟨v0, hv0, _⟩ := IH2 t p hp
            rw [hCc] at hv0
            cases hv0
      | cons v rest =>
        have hvmem : v ∈ (applyEvents X T initState l).chain := by
          rw [hCc]
          exact List.mem_cons_self v rest
        have hrestmem : ∀ w ∈ rest, w ∈ (applyEvents X T initState l).chain := by
          intro w hw
          rw [hCc]
          exact List.mem_cons_of_mem v hw
        have hrestcl : ∀ w ∈ rest, w.endSeq ≠ none := by
          intro w hw
          exact hinvl.headOpen w (by rw [hCc]; simpa using hw)
        have hvstart : v.startSeq < e.seq := (hb.2 v hvmem).1
        by_cases hvo : v.endSeq = none
        · have hstep0 := type2Step_open X T v rest e hdel hvo
          by_cases hsame : fingerprint T (mergeFields X v.snapshot e) = v.fp
          · have hcs : (applyEvents X T initState (l ++ [e])).chain =
                { v with snapshot := mergeFields X v.snapshot e } :: rest := by
              rw [hch', hCc, hstep0, if_pos hsame]
            have hhd : (headCur
                ({ v with snapshot := mergeFields X v.snapshot e } :: rest) :
                Option (Nat × List (Option (Option V)))) =
                some (v.startSeq, v.fp) := by
              simp [headCur, hvo]
            constructor
            · intro w hw t hr
              rw [hcs] at hw
              rcases List.mem_cons.mp hw with rfl | hw'
              · by_cases hts : e.seq ≤ t
                · rw [curFpAt_ge X T l e hts hall, hcs, hhd]
                · rw [curFpAt_lt X T l e (by omega)]
                  exact IH1 v hvmem t ⟨hr.1, fun s hs => by rw [hvo] at hs; cases hs⟩
              · have htlt := hcl w (hrestmem w hw') t hr (hrestcl w hw')
                rw [curFpAt_lt X T l e htlt]
                exact IH1 w (hrestmem w hw') t hr
            · intro t p hp
              by_cases hts : e.seq ≤ t
              · rw [curFpAt_ge X T l e hts hall, hcs, hhd] at hp
                obtain rfl := Option.some_injective _ hp
                refine ⟨{ v with snapshot := mergeFields X v.snapshot e },
                  by rw [hcs]; exact List.mem_cons_self _ _, rfl, rfl,
                  by show v.startSeq ≤ t; omega, ?_⟩
                intro s hs
                have hs' : v.endSeq = some s := hs
                rw [hvo] at hs'
                cases hs'
              · rw [curFpAt_lt X T l e (by omega)] at hp
                obtain ⟨v0, hv0, hst, hfp2, hr⟩ := IH2 t p hp
                rw [hCc] at hv0
                rw [hcs]
                rcases List.mem_cons.mp hv0 with rfl | hv0'
                · exact ⟨{ v0 with snapshot := mergeFields X v0.snapshot e },
                    List.mem_cons_self _ _, hst, hfp2, hr⟩
                · exact ⟨v0, List.mem_cons_of_mem _ hv0', hst, hfp2, hr⟩
          · have hcs : (applyEvents X T initState (l ++ [e])).chain =
                freshVersion X T v.snapshot e :: closeV v e.seq :: rest := by
              rw [hch', hCc, hstep0, if_neg hsame]
            have hhd : (headCur
                (freshVersion X T v.snapshot e :: closeV v e.seq :: rest) :
                Option (Nat × List (Option (Option V)))) =
                some (e.seq, (freshVersion X T v.snapshot e).fp) := by
              simp [headCur, freshVersion]
            constructor
            · intro w hw t hr
              rw [hcs] at hw
              rcases List.mem_cons.mp hw with rfl | hw'
              · have hts : e.seq ≤ t := hr.1
                rw [curFpAt_ge X T l e hts hall, hcs, hhd]; rfl
              · rcases List.mem_cons.mp hw' with rfl | hw''
                · have htlt : t < e.seq := hr.2 e.seq rfl
                  rw [curFpAt_lt X T l e htlt]
                  exact IH1 v hvmem t ⟨hr.1, fun s hs => by rw [hvo] at hs; cases hs⟩
                · have htlt := hcl w (hrestmem w hw'') t hr (hrestcl w hw'')
                  rw [curFpAt_lt X T l e htlt]
                  exact IH1 w (hrestmem w hw'') t hr
            · intro t p hp
              by_cases hts : e.seq ≤ t
              · rw [curFpAt_ge X T l e hts hall, hcs, hhd] at hp
                obtain rfl := Option.some_injective _ hp
                refine ⟨freshVersion X T v.snapshot e,
                  by rw [hcs]; exact List.mem_cons_self _ _, rfl, rfl, hts, ?_⟩
                intro s hs
                rw [freshVersion_endSeq] at hs
                cases hs
              · rw [curFpAt_lt X T l e (by omega)] at hp
                obtain ⟨v0, hv0, hst, hfp2, hr⟩ := IH2 t p hp
                rw [hCc] at hv0
                rw [hcs]
                rcases List.mem_cons.mp hv0 with rfl | hv0'
                · refine ⟨closeV v0 e.seq,
                    List.mem_cons_of_mem _ (List.mem_cons_self _ _), hst, hfp2,
                    hr.1, ?_⟩
                  intro s hs
                  have hs' : some e.seq = some s := hs
                  obtain rfl := Option.some_injective _ hs'
                  omega
                · exact ⟨v0, List.mem_cons_of_mem _ (List.mem_cons_of_mem _ hv0'),
                    hst, hfp2, hr⟩
        · have hcs : (applyEvents X T initState (l ++ [e])).chain =
              freshVersion X T emptyFields e :: v :: rest := by
            rw [hch', hCc, type2Step_nondelete_closed X T v rest e hdel hvo]
          have hhd : (headCur (freshVersion X T emptyFields e :: v :: rest) :
              Option (Nat × List (Option (Option V)))) =
              some (e.seq, (freshVersion X T emptyFields e).fp) := by
            simp [headCur, freshVersion]
          have hallcl : ∀ w ∈ v :: rest, w.endSeq ≠ none := by
            intro w hw
            rcases List.mem_cons.mp hw with rfl | hw'
            · exact hvo
            · exact hrestcl w hw'
          constructor
          · intro w hw t hr
            rw [hcs] at hw
            rcases List.mem_cons.mp hw with rfl | hw'
            · have hts : e.seq ≤ t := hr.1
              rw [curFpAt_ge X T l e hts hall, hcs, hhd]; rfl
            · have hwmem : w ∈ (applyEvents X T initState l).chain := by
                rw [hCc]
                exact hw'
              have htlt := hcl w hwmem t hr (hallcl w hw')
              rw [curFpAt_lt X T l e htlt]
              exact IH1 w hwmem t hr
          · intro t p hp
            by_cases hts : e.seq ≤ t
            · rw [curFpAt_ge X T l e hts hall, hcs, hhd] at hp
              obtain rfl := Option.some_injective _ hp
              refine ⟨freshVersion X T emptyFields e, by rw [hcs]; simp, rfl, rfl,
                hts, ?_⟩
              intro s hs
              rw [freshVersion_endSeq] at hs
              cases hs
            · rw [curFpAt_lt X T l e (by omega)] at hp
              obtain ⟨v0, hv0, hst, hfp2, hr⟩ := IH2 t p hp
              rw [hCc] at hv0
              rw [hcs]
              exact ⟨v0, List.mem_cons_of_mem _ hv0, hst, hfp2, hr⟩

/-- Counterexample for C5 as stated: after insert (sequence 1), delete
(sequence 2), insert (sequence 3), the two versions have ranges
`[1, 2)` and `[3, null)` — a gap at sequence 2 where nothing was current —
so the chain is not contiguous. -/
theorem c5_counterexample :
    ¬ ContiguousChain
        (applyEvents streamExcept streamTracked initState
          [ev3a, evDel, evC4i]).chain := by
  intro h
  unfold ContiguousChain at h
  have hmap : ((applyEvents streamExcept streamTracked initState
      [ev3a, evDel, evC4i]).chain.map fun v => (v.startSeq, v.endSeq)) =
      [(3, none), (1, some 2)] := rfl
  cases hch : (applyEvents streamExcept streamTracked initState
      [ev3a, evDel, evC4i]).chain with
  | nil =>
    rw [hch] at hmap
    simp at hmap
  | cons a t =>
    cases t with
    | nil =>
      rw [hch] at hmap
      simp at hmap
    | cons b t2 =>
      rw [hch] at h hmap
      rw [List.chain'_cons] at h
      simp only [List.map_cons] at hmap
      injection hmap with h1 hmap2
      injection hmap2 with h2 _
      have ha : a.startSeq = 3 := congrArg Prod.fst h1
      have hb : b.endSeq = some 2 := congrArg Prod.snd h2
      have hcontra : (some 3 : Option Nat) = some 2 := by
        rw [← ha, ← h.1]
        exact hb
      exact absurd hcontra (by decide)

/-- C5 (amended).  Version chain integrity for any reachable chain: at most
one version is open, zero immediately after a trailing delete; versions are
strictly ordered by `start_sequence` (newest first); their
`[start_sequence, end_sequence)` ranges are pairwise disjoint and cover
exactly the sequence spans during which each `(start_sequence, fingerprint)`
was current (replaying the events up to any time `t` yields an open head
version exactly when `t` lies in some version's range, with that version's
start and fingerprint); and the ranges are contiguous when no `Delete`
event intervenes — after a delete a gap with no current version may
separate consecutive versions, which is what the counterexample exhibits. -/
theorem c5_chain_integrity {V : Type} [DecidableEq V] (X T : List Attr)
    (es : List (ChangeEvent V)) (hasc : List.Pairwise seqLt es) :
    ((applyEvents X T initState es).chain.filter
        fun v => decide (v.endSeq = none)).length ≤ 1
    ∧ (∀ eL, es.getLast? = some eL → eL.op = Op.delete →
        ∀ v ∈ (applyEvents X T initState es).chain, v.endSeq ≠ none)
    ∧ List.Pairwise (fun a b => b.startSeq < a.startSeq)
        (applyEvents X T initState es).chain
    ∧ List.Pairwise (fun a b => ∀ t, rangeAt b t → ¬ rangeAt a t)
        (applyEvents X T initState es).chain
    ∧ (∀ v ∈ (applyEvents X T initState es).chain, ∀ t, rangeAt v t →
        curFpAt X T es t = some (v.startSeq, v.fp))
    ∧ (∀ (t : Nat) (p : Nat × List (Option (Option V))),
        curFpAt X T es t = some p →
        ∃ v, v ∈ (applyEvents X T initState es).chain ∧
          v.startSeq = p.1 ∧ v.fp = p.2 ∧ rangeAt v t)
    ∧ ((∀ e ∈ es, e.op ≠ Op.delete) →
        ContiguousChain (applyEvents X T initState es).chain) := by
  have hinv := chainInv_reachable X T es
  obtain ⟨hcov1, hcov2⟩ := type2_coverage X T es hasc
  refine ⟨?_, ?_, ?_, ?_, hcov1, hcov2, ?_⟩
  · exact atMostOneOpen_of_headOpen _ hinv.headOpen
  · intro eL hgl hop v hv
    rcases List.eq_nil_or_concat es with rfl | ⟨l', z, hz⟩
    · cases hgl
    · rw [List.concat_eq_append] at hz
      subst hz
      rw [List.getLast?_concat] at hgl
      obtain rfl := Option.some_injective _ hgl
      exact trailing_delete_closes X T l' _ hasc hop v hv
  · refine pairwise_strengthen _ hinv.ordered ?_
    intro a b _ hb hr
    obtain ⟨s, hs, hle⟩ := hr
    have := hinv.startLt b hb s hs
    omega
  · refine pairwise_strengthen _ hinv.ordered ?_
    intro a b _ _ hr t hrb hra
    obtain ⟨s, hs, hle⟩ := hr
    have h1 := hrb.2 s hs
    have h2 := hra.1
    omega
  · intro hnd
    have hpure := applyEvents_init_pure X T es hasc
    have : (applyEvents X T initState es).chain =
        es.foldl (type2Step X T) [] := by
      rw [hpure]
    rw [this]
    exact type2_contiguous_nodelete X T es hnd

/-- Witness for C5 (amended) at a concrete input: the
insert-delete-insert scenario satisfies the at-most-one-open-version
clause. -/
theorem c5_chain_integrity_witness :
    ((applyEvents streamExcept streamTracked initState
        [ev3a, evDel, evC4i]).chain.filter
      fun v => decide (v.endSeq = none)).length ≤ 1 :=
  (c5_chain_integrity streamExcept streamTracked [ev3a, evDel, evC4i]
    (by decide)).1

/-- First event of the C6 scenario (sequence 1, sets `email`). -/
def ev6a : ChangeEvent Nat :=
  ⟨"k", Op.update, 1, evFields [(Attr.email, some 1)]⟩

/-- Second event of the C6 scenario (sequence 2, sets `city`). -/
def ev6b : ChangeEvent Nat :=
  ⟨"k", Op.update, 2, evFields [(Attr.city, some 2)]⟩

/-- Counterexample for C6 as stated: splitting two events for the same key
into two batches and swapping the batch order changes the final
current-state output — the late-arriving lower-sequence event is dropped as
stale, so its `email` update is lost. -/
theorem c6_counterexample :
    ¬ (applyBatchesG streamExcept streamTracked initG [[ev6a], [ev6b]] "k").type1 =
      (applyBatchesG streamExcept streamTracked initG [[ev6b], [ev6a]] "k").type1 := by
  intro h
  have h2 := congrArg (fun o => o.map fun m => m Attr.email) h
  have hL : (((applyBatchesG streamExcept streamTracked initG
      [[ev6a], [ev6b]] "k").type1).map fun m => m Attr.email) =
      some (some (some 1)) := rfl
  have hR : (((applyBatchesG streamExcept streamTracked initG
      [[ev6b], [ev6a]] "k").type1).map fun m => m Attr.email) =
      some none := rfl
  simp only [] at h2
  rw [hL, hR] at h2
  exact absurd h2 (by decide)

lemma sorted_perm_eq_of_distinct {V : Type} :
    ∀ (l1 l2 : List (ChangeEvent V)), List.Perm l1 l2 →
      l1.Sorted seqLe → l2.Sorted seqLe →
      l1.Pairwise (fun a b => a.seq ≠ b.seq) → l1 = l2 := by
  intro l1
  induction l1 with
  | nil =>
    intro l2 hp _ _ _
    exact (hp.symm.eq_nil).symm
  | cons a t1 ih =>
    intro l2 hp hs1 hs2 hnd
    cases l2 with
    | nil => exact absurd hp.eq_nil (by simp)
    | cons b t2 =>
      have hab : a ∈ b :: t2 := hp.mem_iff.mp (List.mem_cons_self a t1)
      have hba : b ∈ a :: t1 := hp.mem_iff.mpr (List.mem_cons_self b t2)
      by_cases heq : a = b
      · subst heq
        have ht := hp.cons_inv
        rw [ih t2 ht hs1.of_cons hs2.of_cons (List.pairwise_cons.mp hnd).2]
      · exfalso
        have ha' : a ∈ t2 := by
          rcases List.mem_cons.mp hab with h | h
          · exact absurd h heq
          · exact h
        have hb' : b ∈ t1 := by
          rcases List.mem_cons.mp hba with h | h
          · exact absurd h.symm heq
          · exact h
        have h1 : a.seq ≤ b.seq := List.rel_of_sorted_cons hs1 b hb'
        have h2 : b.seq ≤ a.seq := List.rel_of_sorted_cons hs2 a ha'
        have h3 : a.seq ≠ b.seq := (List.pairwise_cons.mp hnd).1 b hb'
        omega

/-- C6 (amended).  Order independence: within a single batch, any arrival
order (permutation) of the events yields the same output for every key,
provided the key's events carry distinct sequence values (ties are assumed
resolved into the sequence key); and two whole batches touching disjoint
key sets can be processed in either order with the same result.  Reordering
a key's events across separate batches is observably different, as the
counterexample shows, because a later batch's lower-sequence event is
dropped as stale. -/
theorem c6_order_independence {V : Type} [DecidableEq V] (X T : List Attr) :
    (∀ (g : GState V) (es es' : List (ChangeEvent V)) (k : String),
      List.Perm es' es →
      (es.filter fun e => e.key == k).Pairwise (fun a b => a.seq ≠ b.seq) →
      applyBatchG X T g es' k = applyBatchG X T g es k)
    ∧ (∀ (g : GState V) (b1 b2 : List (ChangeEvent V)),
        (∀ e1 ∈ b1, ∀ e2 ∈ b2, e1.key ≠ e2.key) →
        applyBatchG X T (applyBatchG X T g b1) b2 =
          applyBatchG X T (applyBatchG X T g b2) b1) := by
  constructor
  · intro g es es' k hperm hnd
    unfold applyBatchG
    have hpf : List.Perm (es'.filter fun e => e.key == k) (es.filter fun e => e.key == k) :=
      hperm.filter _
    have hnd' : (es'.filter fun e => e.key == k).Pairwise
        (fun a b => a.seq ≠ b.seq) :=
      (List.Perm.pairwise_iff (fun h => Ne.symm h) hpf).mpr hnd
    have hsortperm : List.Perm (sortEvents (es'.filter fun e => e.key == k))
        (sortEvents (es.filter fun e => e.key == k)) :=
      ((List.perm_insertionSort seqLe _).trans hpf).trans
        (List.perm_insertionSort seqLe _).symm
    have hnds : (sortEvents (es'.filter fun e => e.key == k)).Pairwise
        (fun a b => a.seq ≠ b.seq) :=
      (List.Perm.pairwise_iff (fun h => Ne.symm h) (List.perm_insertionSort seqLe _)).mpr hnd'
    have heq : sortEvents (es'.filter fun e => e.key == k) =
        sortEvents (es.filter fun e => e.key == k) :=
      sorted_perm_eq_of_distinct _ _ hsortperm
        (List.sorted_insertionSort seqLe _) (List.sorted_insertionSort seqLe _)
        hnds
    unfold applyBatchK
    rw [heq]
  · intro g b1 b2 hdisj
    funext k
    have hcase : (b1.filter fun e => e.key == k) = [] ∨
        (b2.filter fun e => e.key == k) = [] := by
      by_contra hc
      push_neg at hc
      obtain ⟨e1, he1⟩ := List.exists_mem_of_ne_nil _ hc.1
      obtain ⟨e2, he2⟩ := List.exists_mem_of_ne_nil _ hc.2
      have h1 := List.mem_filter.mp he1
      have h2 := List.mem_filter.mp he2
      have hk1 : e1.key = k := by simpa using h1.2
      have hk2 : e2.key = k := by simpa using h2.2
      exact hdisj e1 h1.1 e2 h2.1 (hk1.trans hk2.symm)
    have hempty : ∀ st : KeyState V, applyBatchK X T st [] = st := fun _ => rfl
    show applyBatchK X T (applyBatchG X T g b1 k) (b2.filter fun e => e.key == k) =
      applyBatchK X T (applyBatchG X T g b2 k) (b1.filter fun e => e.key == k)
    unfold applyBatchG
    rcases hcase with h0 | h0
    · rw [h0]
      simp only [hempty]
    · rw [h0]
      simp only [hempty]

/-- Witness for C6 (amended) at a concrete input: the two events delivered
in reversed order within one batch give the same result as in order. -/
theorem c6_order_independence_witness :
    applyBatchG streamExcept streamTracked initG [ev6b, ev6a] "k" =
      applyBatchG streamExcept streamTracked initG [ev6a, ev6b] "k" :=
  (c6_order_independence streamExcept streamTracked).1 initG [ev6a, ev6b]
    [ev6b, ev6a] "k" (List.Perm.swap ev6a ev6b []) (by decide)

lemma type2Step_snapshot_cases {V : Type} [DecidableEq V] (X T : List Attr)
    (ch : List (Version V)) (e : ChangeEvent V) :
    ∀ v ∈ type2Step X T ch e,
      (∃ w ∈ ch, v.snapshot = w.snapshot) ∨
        ∃ b, v.snapshot = mergeFields X b e := by
  by_cases hdel : e.op = Op.delete
  · cases ch with
    | nil =>
      rw [type2Step_delete_nil X T e hdel]
      intro v hv
      cases hv
    | cons w rest =>
      by_cases hvo : w.endSeq = none
      · rw [type2Step_delete_open X T w rest e hdel hvo]
        intro v hv
        rcases List.mem_cons.mp hv with rfl | h
        · exact Or.inl ⟨w, List.mem_cons_self w rest, rfl⟩
        · exact Or.inl ⟨v, List.mem_cons_of_mem w h, rfl⟩
      · rw [type2Step_delete_closed X T w rest e hdel hvo]
        intro v hv
        exact Or.inl ⟨v, hv, rfl⟩
  · cases ch with
    | nil =>
      rw [type2Step_nondelete_nil X T e hdel]
      intro v hv
      rcases List.mem_singleton.mp hv with rfl
      exact Or.inr ⟨emptyFields, rfl⟩
    | cons w rest =>
      by_cases hvo : w.endSeq = none
      · rw [type2Step_open X T w rest e hdel hvo]
        by_cases hsame : fingerprint T (mergeFields X w.snapshot e) = w.fp
        · rw [if_pos hsame]
          intro v hv
          rcases List.mem_cons.mp hv with rfl | h
          · exact Or.inr ⟨w.snapshot, rfl⟩
          · exact Or.inl ⟨v, List.mem_cons_of_mem w h, rfl⟩
        · rw [if_neg hsame]
          intro v hv
          rcases List.mem_cons.mp hv with rfl | h
          · exact Or.inr ⟨w.snapshot, rfl⟩
          · rcases List.mem_cons.mp h with rfl | h'
            · exact Or.inl ⟨w, List.mem_cons_self w rest, rfl⟩
            · exact Or.inl ⟨v, List.mem_cons_of_mem w h', rfl⟩
      · rw [type2Step_nondelete_closed X T w rest e hdel hvo]
        intro v hv
        rcases List.mem_cons.mp hv with rfl | h
        · exact Or.inr ⟨emptyFields, rfl⟩
        · exact Or.inl ⟨v, h, rfl⟩

/-- A key state never stores values for except-list attributes, in the
Type 1 record or in any version snapshot. -/
def ExclOk {V : Type} (X : List Attr) (st : KeyState V) : Prop :=
  ∀ a ∈ X, (∀ m, st.type1 = some m → m a = none) ∧
    (∀ v ∈ st.chain, v.snapshot a = none)

lemma mergeFields_except {V : Type} (X : List Attr)
    (m : Attr → Option (Option V)) (e : ChangeEvent V) {a : Attr} (ha : a ∈ X) :
    mergeFields X m e a = none := by
  unfold mergeFields
  rw [if_pos ha]

lemma exclOk_applyEvent {V : Type} [DecidableEq V] (X T : List Attr)
    (st : KeyState V) (e : ChangeEvent V) (h : ExclOk X st) :
    ExclOk X (applyEvent X T st e) := by
  by_cases hstale : isStale st.lastApplied e.seq = true
  · unfold applyEvent
    rw [hstale]
    simpa using h
  · have happ : applyEvent X T st e =
        ⟨type1Step X st.type1 e, type2Step X T st.chain e, some e.seq⟩ := by
      unfold applyEvent
      rw [Bool.not_eq_true] at hstale
      rw [hstale]
      simp
    rw [happ]
    intro a ha
    constructor
    · intro m hm
      have hm' : type1Step X st.type1 e = some m := hm
      unfold type1Step at hm'
      cases he : e.op with
      | delete =>
        rw [he] at hm'
        cases hm'
      | insert =>
        rw [he] at hm'
        obtain rfl := Option.some_injective _ hm'
        exact mergeFields_except X _ e ha
      | update =>
        rw [he] at hm'
        obtain rfl := Option.some_injective _ hm'
        exact mergeFields_except X _ e ha
    · intro v hv
      have hv' : v ∈ type2Step X T st.chain e := hv
      rcases type2Step_snapshot_cases X T st.chain e v hv' with ⟨w, hw, hsnap⟩ | ⟨b, hsnap⟩
      · rw [hsnap]
        exact (h a ha).2 w hw
      · rw [hsnap]
        exact mergeFields_except X b e ha

/-- C7.  Except-list exclusion: starting from the empty state, after any
events no except-list attribute carries a value in the Type 1 record or in
any history version snapshot; changing an event only on except-list
attributes cannot change the candidate mapping and hence cannot change the
Type 2 tracked fingerprint; and in the repository's configurations the
tracked column list is disjoint from both the streaming and the batch
except lists. -/
theorem c7_except_columns {V : Type} [DecidableEq V] (X T : List Attr)
    (es : List (ChangeEvent V)) :
    (∀ a ∈ X,
      (∀ m, (applyEvents X T initState es).type1 = some m → m a = none)
      ∧ (∀ v ∈ (applyEvents X T initState es).chain, v.snapshot a = none))
    ∧ (∀ (m : Attr → Option (Option V)) (e e' : ChangeEvent V),
        (∀ a, a ∉ X → e.fields a = e'.fields a) →
        fingerprint T (mergeFields X m e) = fingerprint T (mergeFields X m e'))
    ∧ (∀ a ∈ streamTracked, a ∉ streamExcept)
    ∧ (∀ a ∈ streamTracked, a ∉ batchExcept) := by
  refine ⟨?_, ?_, by decide, by decide⟩
  · have : ∀ (es' : List (ChangeEvent V)) (st : KeyState V), ExclOk X st →
        ExclOk X (applyEvents X T st es') := by
      intro es'
      induction es' with
      | nil => intro st h; exact h
      | cons e tl ih =>
        intro st h
        exact ih (applyEvent X T st e) (exclOk_applyEvent X T st e h)
    exact this es initState
      (by intro a _; exact ⟨(fun m hm => by cases hm), (fun v hv => by cases hv)⟩)
  · intro m e e' hagree
    have : mergeFields X m e = mergeFields X m e' := by
      funext a
      by_cases ha : a ∈ X
      · rw [mergeFields_except X m e ha, mergeFields_except X m e' ha]
      · unfold mergeFields
        rw [if_neg ha, if_neg ha, hagree a ha]
    rw [this]

/-- Witness for C7 at a concrete input: after the demo event, the stored
record carries nothing for the except-listed `operation` attribute. -/
theorem c7_except_columns_witness :
    ∀ m, (applyEvents streamExcept streamTracked initState [ev3a]).type1 = some m →
      m Attr.operation = none :=
  ((c7_except_columns streamExcept streamTracked [ev3a]).1 Attr.operation
    (by decide)).1

/-- A CDC row with a business key but no sequence number and no operation
tag — malformed in the sense of C8. -/
def mongoMalformed : MongoRow :=
  { cpf := some "123", user_id := none, uuid := none, email := some "a@x.com"
    delivery_address := none, city := none, phone_number := none
    country := none, operation := none, sequenceNum := none
    dt_current_timestamp := none, ingestion_timestamp := none }

/-- A well-formed CDC row used by the staging witnesses. -/
def mongoGood : MongoRow :=
  { cpf := some "42", user_id := some 7, uuid := some "u1"
    email := some "a@x.com", delivery_address := some "street 1"
    city := some "sp", phone_number := some "555", country := some "br"
    operation := some "UPDATE", sequenceNum := some 10
    dt_current_timestamp := some 100, ingestion_timestamp := some 100 }

/-- Counterexample for C8 as stated: an event missing both its sequence
number and its operation tag passes the ingress filter (which checks only
`cpf IS NOT NULL`) and reaches the merger input stream — it is neither
rejected nor reported. -/
theorem c8_counterexample :
    mongoUnified mongoMalformed ∈ silver_users_staging_stream [mongoMalformed] []
    ∧ (mongoUnified mongoMalformed).sequenceNum = none
    ∧ (mongoUnified mongoMalformed).operation = none := by
  refine ⟨?_, rfl, rfl⟩
  decide

/-- C8 (amended).  Ingress filtering: the staging stream silently drops
exactly the rows with a null business key (`cpf`) — every emitted row has a
key, and every input row with a key reaches the output regardless of
missing sequence or operation fields; nothing is reported to any caller. -/
theorem c8_ingress_filter (mongo : List MongoRow) (mssql : List MssqlRow) :
    (∀ r ∈ silver_users_staging_stream mongo mssql, r.cpf.isSome = true)
    ∧ (∀ x ∈ mongo, x.cpf.isSome = true →
        mongoUnified x ∈ silver_users_staging_stream mongo mssql)
    ∧ (∀ y ∈ mssql, y.cpf.isSome = true →
        mssqlUnified y ∈ silver_users_staging_stream mongo mssql) := by
  refine ⟨?_, ?_, ?_⟩
  · intro r hr
    unfold silver_users_staging_stream at hr
    rcases List.mem_append.mp hr with h | h
    · exact (List.mem_filter.mp h).2
    · exact (List.mem_filter.mp h).2
  · intro x hx hk
    unfold silver_users_staging_stream
    refine List.mem_append_left _ (List.mem_filter.mpr ⟨List.mem_map_of_mem _ hx, ?_⟩)
    exact hk
  · intro y hy hk
    unfold silver_users_staging_stream
    refine List.mem_append_right _ (List.mem_filter.mpr ⟨List.mem_map_of_mem _ hy, ?_⟩)
    exact hk

/-- Witness for C8 (amended) at a concrete input: a keyed row reaches the
staging output. -/
theorem c8_ingress_filter_witness :
    mongoUnified mongoGood ∈ silver_users_staging_stream [mongoGood] [] :=
  (c8_ingress_filter [mongoGood] []).2.1 mongoGood (List.mem_singleton_self _) rfl

/-- C9.  Source tagging and explicit nulls: every row of the unified
staging stream is tagged `source_system = "mongodb"` or `"mssql"`; MongoDB
rows carry explicit nulls in all MSSQL-owned profile columns and MSSQL rows
carry explicit nulls in all MongoDB-owned delivery columns. -/
theorem c9_source_tagging (mongo : List MongoRow) (mssql : List MssqlRow) :
    ∀ r ∈ silver_users_staging_stream mongo mssql,
      (r.source_system = "mongodb" ∨ r.source_system = "mssql")
      ∧ (r.source_system = "mongodb" →
          r.first_name = none ∧ r.last_name = none ∧ r.birthday = none ∧
          r.job = none ∧ r.company_name = none)
      ∧ (r.source_system = "mssql" →
          r.email = none ∧ r.delivery_address = none ∧ r.city = none) := by
  intro r hr
  unfold silver_users_staging_stream at hr
  rcases List.mem_append.mp hr with h | h
  · obtain ⟨hmem, _⟩ := List.mem_filter.mp h
    obtain ⟨x, _, rfl⟩ := List.mem_map.mp hmem
    exact ⟨Or.inl rfl, fun _ => ⟨rfl, rfl, rfl, rfl, rfl⟩,
      fun hms => absurd (show ("mongodb" : String) = "mssql" from hms) (by decide)⟩
  · obtain ⟨hmem, _⟩ := List.mem_filter.mp h
    obtain ⟨y, _, rfl⟩ := List.mem_map.mp hmem
    exact ⟨Or.inr rfl,
      fun hmg => absurd (show ("mssql" : String) = "mongodb" from hmg) (by decide),
      fun _ => ⟨rfl, rfl, rfl⟩⟩

/-- Witness for C9 at a concrete input: the unified MongoDB row is tagged
`mongodb` and its MSSQL-owned columns are explicit nulls. -/
theorem c9_source_tagging_witness :
    ((mongoUnified mongoGood).source_system = "mongodb" ∨
      (mongoUnified mongoGood).source_system = "mssql")
    ∧ ((mongoUnified mongoGood).source_system = "mongodb" →
        (mongoUnified mongoGood).first_name = none ∧
        (mongoUnified mongoGood).last_name = none ∧
        (mongoUnified mongoGood).birthday = none ∧
        (mongoUnified mongoGood).job = none ∧
        (mongoUnified mongoGood).company_name = none)
    ∧ ((mongoUnified mongoGood).source_system = "mssql" →
        (mongoUnified mongoGood).email = none ∧
        (mongoUnified mongoGood).delivery_address = none ∧
        (mongoUnified mongoGood).city = none) :=
  c9_source_tagging [mongoGood] [] (mongoUnified mongoGood) (by decide)

lemma obLe_refl (a : Option Nat) : obLe a a = true := by
  cases a <;> simp [obLe]

lemma obLe_total (a b : Option Nat) : obLe a b = true ∨ obLe b a = true := by
  cases a <;> cases b <;> simp [obLe] <;> omega

lemma obLe_trans {a b c : Option Nat} (h1 : obLe a b = true)
    (h2 : obLe b c = true) : obLe a c = true := by
  cases a <;> cases b <;> cases c <;> simp [obLe] at * <;> omega

lemma obLe_antisymm {a b : Option Nat} (h1 : obLe a b = true)
    (h2 : obLe b a = true) : a = b := by
  cases a <;> cases b <;> simp [obLe] at * <;> omega

lemma winLe_refl (r : StagingRow) : winLe r r = true := by
  unfold winLe
  rw [if_pos rfl]
  exact obLe_refl _

instance : IsTotal StagingRow winRel := by
  refine ⟨fun a b => ?_⟩
  unfold winRel winLe
  by_cases h : a.dt_current_timestamp = b.dt_current_timestamp
  · rw [if_pos h, if_pos h.symm]
    exact obLe_total _ _
  · rw [if_neg h, if_neg fun hh => h hh.symm]
    exact obLe_total _ _

instance : IsTrans StagingRow winRel := by
  refine ⟨fun a b c h1 h2 => ?_⟩
  unfold winRel winLe at h1 h2 ⊢
  by_cases hab : a.dt_current_timestamp = b.dt_current_timestamp
  · by_cases hbc : b.dt_current_timestamp = c.dt_current_timestamp
    · rw [if_pos hab] at h1
      rw [if_pos hbc] at h2
      rw [if_pos (hab.trans hbc)]
      exact obLe_trans h2 h1
    · rw [if_pos hab] at h1
      rw [if_neg hbc] at h2
      have hac : ¬ a.dt_current_timestamp = c.dt_current_timestamp := by
        rw [hab]
        exact hbc
      rw [if_neg hac, hab]
      exact h2
  · by_cases hbc : b.dt_current_timestamp = c.dt_current_timestamp
    · rw [if_neg hab] at h1
      have hac : ¬ a.dt_current_timestamp = c.dt_current_timestamp :=
        fun h => hab (h.trans hbc.symm)
      rw [if_neg hac, ← hbc]
      exact h1
    · rw [if_neg hab] at h1
      rw [if_neg hbc] at h2
      by_cases hac : a.dt_current_timestamp = c.dt_current_timestamp
      · exfalso
        rw [hac] at h1
        exact hbc (obLe_antisymm h2 h1).symm
      · rw [if_neg hac]
        exact obLe_trans h2 h1

lemma filterMap_key_unique (f : Option String → Option StagingRow) :
    ∀ (ks : List (Option String)) (k : Option String) (r : StagingRow),
      ks.Nodup →
      (∀ k' r', f k' = some r' → r'.cpf = k') →
      k ∈ ks → f k = some r →
      ((ks.filterMap f).filter fun r' => r'.cpf == k) = [r] := by
  intro ks
  induction ks with
  | nil =>
    intro k r _ _ hk _
    cases hk
  | cons k0 kt ih =>
    intro k r hnd hA hk hf
    have hnd' := List.nodup_cons.mp hnd
    rw [List.filterMap_cons]
    cases hf0 : f k0 with
    | none =>
      rcases List.mem_cons.mp hk with rfl | hk'
      · rw [hf0] at hf
        cases hf
      · exact ih k r hnd'.2 hA hk' hf
    | some b =>
      have hbk0 : b.cpf = k0 := hA k0 b hf0
      rw [List.filter_cons]
      by_cases hkk : k = k0
      · subst hkk
        rw [hf] at hf0
        obtain rfl := Option.some_injective _ hf0
        rw [if_pos (by rw [hbk0]; simp)]
        have hnilrest : ((kt.filterMap f).filter fun r' => r'.cpf == k) = [] := by
          rw [List.filter_eq_nil_iff]
          intro r'' hr''
          obtain ⟨k'', hk''mem, hfk''⟩ := List.mem_filterMap.mp hr''
          rw [hA k'' r'' hfk'']
          simp only [beq_iff_eq, Bool.not_eq_true]
          intro heq
          rw [heq] at hk''mem
          exact hnd'.1 hk''mem
        rw [hnilrest]
      · rw [if_neg (by rw [hbk0]; simp only [beq_iff_eq]; exact fun h => hkk h.symm)]
        refine ih k r hnd'.2 hA ?_ hf
        rcases List.mem_cons.mp hk with h | h
        · exact absurd h hkk
        · exact h

/-- C10.  The `silver_users_staging_latest` table contains, for every key
appearing in the staging stream, exactly one row for that key: a staging
row with that key that is maximal under the window ordering by
`dt_current_timestamp` descending, then `sequenceNum` descending. -/
theorem c10_staging_latest (mongo : List MongoRow) (mssql : List MssqlRow)
    (k : Option String)
    (hk : k ∈ (silver_users_staging_stream mongo mssql).map fun r => r.cpf) :
    ∃ r, ((silver_users_staging_latest mongo mssql).filter
        fun r' => r'.cpf == k) = [r]
      ∧ r ∈ silver_users_staging_stream mongo mssql
      ∧ r.cpf = k
      ∧ ∀ r' ∈ silver_users_staging_stream mongo mssql, r'.cpf = k →
          winLe r r' = true := by
  obtain ⟨r0, hr0, hr0k⟩ := List.mem_map.mp hk
  have hr0g : r0 ∈ (silver_users_staging_stream mongo mssql).filter
      (fun rr => rr.cpf == k) :=
    List.mem_filter.mpr ⟨hr0, by rw [hr0k]; simp⟩
  have hgne : (silver_users_staging_stream mongo mssql).filter
      (fun rr => rr.cpf == k) ≠ [] := List.ne_nil_of_mem hr0g
  have hsne : List.insertionSort winRel
      ((silver_users_staging_stream mongo mssql).filter
        fun rr => rr.cpf == k) ≠ [] := by
    intro h
    have hperm := List.perm_insertionSort winRel
      ((silver_users_staging_stream mongo mssql).filter fun rr => rr.cpf == k)
    rw [h] at hperm
    exact hgne hperm.nil_eq.symm
  obtain ⟨r, rest, hsort⟩ := List.exists_cons_of_ne_nil hsne
  have hhead : (List.insertionSort winRel
      ((silver_users_staging_stream mongo mssql).filter
        fun rr => rr.cpf == k)).head? = some r := by
    rw [hsort]
    rfl
  have hrmem_g : r ∈ (silver_users_staging_stream mongo mssql).filter
      (fun rr => rr.cpf == k) := by
    have hmem : r ∈ List.insertionSort winRel
        ((silver_users_staging_stream mongo mssql).filter
          fun rr => rr.cpf == k) := by
      rw [hsort]
      exact List.mem_cons_self r rest
    exact (List.mem_insertionSort winRel).mp hmem
  have hrstag : r ∈ silver_users_staging_stream mongo mssql :=
    (List.mem_filter.mp hrmem_g).1
  have hrk : r.cpf = k := by
    have := (List.mem_filter.mp hrmem_g).2
    simpa [beq_iff_eq] using this
  have hA : ∀ (k' : Option String) (r' : StagingRow),
      (List.insertionSort winRel
        ((silver_users_staging_stream mongo mssql).filter
          fun rr => rr.cpf == k')).head? = some r' → r'.cpf = k' := by
    intro k' r' hh
    cases hsrt : List.insertionSort winRel
        ((silver_users_staging_stream mongo mssql).filter
          fun rr => rr.cpf == k') with
    | nil =>
      rw [hsrt] at hh
      cases hh
    | cons a t =>
      rw [hsrt] at hh
      have ha : a = r' := by
        have : (some a : Option StagingRow) = some r' := hh
        exact Option.some_injective _ this
      subst ha
      have ham : a ∈ (silver_users_staging_stream mongo mssql).filter
          (fun rr => rr.cpf == k') := by
        have : a ∈ List.insertionSort winRel
            ((silver_users_staging_stream mongo mssql).filter
              fun rr => rr.cpf == k') := by
          rw [hsrt]
          exact List.mem_cons_self a t
        exact (List.mem_insertionSort winRel).mp this
      have := (List.mem_filter.mp ham).2
      simpa [beq_iff_eq] using this
  have hsorted : List.Sorted winRel (r :: rest) := by
    rw [← hsort]
    exact List.sorted_insertionSort winRel _
  have hmax : ∀ r' ∈ silver_users_staging_stream mongo mssql, r'.cpf = k →
      winLe r r' = true := by
    intro r' hr' hk'
    have hr'g : r' ∈ (silver_users_staging_stream mongo mssql).filter
        (fun rr => rr.cpf == k) :=
      List.mem_filter.mpr ⟨hr', by rw [hk']; simp⟩
    have hr's : r' ∈ r :: rest := by
      rw [← hsort]
      exact (List.mem_insertionSort winRel).mpr hr'g
    rcases List.mem_cons.mp hr's with rfl | h
    · exact winLe_refl _
    · exact List.rel_of_sorted_cons hsorted r' h
  have hlat : silver_users_staging_latest mongo mssql =
      (((silver_users_staging_stream mongo mssql).map fun rr => rr.cpf).dedup).filterMap
        (fun k' => (List.insertionSort winRel
          ((silver_users_staging_stream mongo mssql).filter
            fun rr => rr.cpf == k')).head?) := rfl
  refine ⟨r, ?_, hrstag, hrk, hmax⟩
  rw [hlat]
  exact filterMap_key_unique _ _ k r (List.nodup_dedup _) hA
    (List.mem_dedup.mpr hk) hhead

/-- Witness for C10 at a concrete input: the one-row staging stream yields
exactly one latest row for key `42`. -/
theorem c10_staging_latest_witness :
    ∃ r, ((silver_users_staging_latest [mongoGood] []).filter
        fun r' => r'.cpf == some "42") = [r]
      ∧ r ∈ silver_users_staging_stream [mongoGood] []
      ∧ r.cpf = some "42"
      ∧ ∀ r' ∈ silver_users_staging_stream [mongoGood] [],
          r'.cpf = some "42" → winLe r r' = true :=
  c10_staging_latest [mongoGood] [] (some "42") (by decide)
